import Mathlib

/-!
# tmp102-gui: `temperature_gui.c`

A shallow embedding of the terminal temperature monitor and the properties of
its extractor, history buffer, renderer and driver loop.

Conventions of the embedding:

* a C string is the `List Char` of its characters before the terminating NUL;
  a `char*` into a string is the suffix that starts at the pointed character.
  The program searches for ASCII characters only, so reading the bytes of a
  UTF-8 line as characters does not change what it finds;
* a value of type `float` or `double` is a `CFloat`: NaN, one of the two
  infinities, or a finite value held exactly as a rational. Every arithmetic
  operation rounds its exact result to the format of the C expression
  (binary32 or binary64, round to nearest, ties to even). The sign of a zero is
  not kept: no comparison or arithmetic step of the program depends on it.
  A conversion that C leaves undefined (the cast of a value outside `int`)
  has no result (`none`);
* `atof`, `strstr` and `strchr` belong to the C library, not to the program;
  they are modelled after the C standard (`atof` as `strtod` in the C locale
  with correct rounding);
* a `printf` call is kept as its format string with the list of its arguments
  (`Printf`), so a frame is the list of `printf` calls that `draw_screen`
  performs, in order; the text `snprintf` writes to `status_msg` is kept as
  its format string with its argument (`Status`);
* the values the program reads from its environment (the wall-clock second,
  the formatted local time, the lines of the pipe) are explicit inputs.
-/

namespace TempGui

/-! ## Floating-point values -/

/-- A value of C type `float` or `double`. -/
inductive CFloat where
  | nan
  | ninf
  | fin (q : ℚ)
  | pinf
  deriving DecidableEq

namespace CFloat

/-- The C comparison `a < b` (false whenever an operand is NaN). -/
def lt : CFloat → CFloat → Bool
  | nan, _ => false
  | _, nan => false
  | ninf, ninf => false
  | ninf, _ => true
  | fin a, fin b => decide (a < b)
  | fin _, pinf => true
  | fin _, ninf => false
  | pinf, _ => false

/-- The C comparison `a > b`. -/
def gt (a b : CFloat) : Bool := lt b a

/-- The C comparison `a <= b` (false whenever an operand is NaN). -/
def le : CFloat → CFloat → Bool
  | nan, _ => false
  | _, nan => false
  | ninf, _ => true
  | fin a, fin b => decide (a ≤ b)
  | fin _, pinf => true
  | fin _, ninf => false
  | pinf, pinf => true
  | pinf, _ => false

end CFloat

open CFloat

/-- Number of halvings that bring `n` below 2, at most `fuel` of them. -/
def log2Fuel : ℕ → ℕ → ℕ
  | 0, _ => 0
  | fuel + 1, n => if 2 ≤ n then log2Fuel fuel (n / 2) + 1 else 0

/-- Greatest `k` with `2 ^ k ≤ n`, for a positive natural number `n`. -/
def natLog2 (n : ℕ) : ℕ := log2Fuel n n

/-- Greatest `e` with `2 ^ e ≤ q`, for a positive rational `q`. -/
def ilog2 (q : ℚ) : ℤ :=
  let e : ℤ := (natLog2 q.num.natAbs : ℤ) - (natLog2 q.den : ℤ)
  if (2 : ℚ) ^ e ≤ q then e else e - 1

/-- Nearest integer to a nonnegative rational, ties to the even neighbour. -/
def roundHalfEven (x : ℚ) : ℤ :=
  let f : ℤ := ⌊x⌋
  let r : ℚ := x - f
  if r < 1 / 2 then f
  else if 1 / 2 < r then f + 1
  else if f % 2 = 0 then f else f + 1

/-- Rounding of an exact value to the binary format with `p` significand bits
and exponent range `emin .. emax`: round to nearest, ties to even, gradual
underflow, overflow to an infinity. -/
def roundBinary (p : ℕ) (emin emax : ℤ) (q : ℚ) : CFloat :=
  if q = 0 then fin 0
  else
    let e : ℤ := max (ilog2 |q|) emin
    let ulp : ℚ := (2 : ℚ) ^ (e - ((p : ℤ) - 1))
    let r : ℚ := (roundHalfEven (|q| / ulp) : ℚ) * ulp
    if (2 : ℚ) ^ (emax + 1) ≤ r then (if q < 0 then ninf else pinf)
    else fin (if q < 0 then -r else r)

/-- Rounding to `float` (binary32). -/
def roundFloat (q : ℚ) : CFloat := roundBinary 24 (-126) 127 q

/-- Rounding to `double` (binary64). -/
def roundDouble (q : ℚ) : CFloat := roundBinary 53 (-1022) 1023 q

/-- Conversion of a `double` to `float`, as in `return atof(pos);` from a
function that returns `float`. -/
def double_to_float : CFloat → CFloat
  | fin q => roundFloat q
  | x => x

/-- The `float` addition `a + b`. -/
def fadd : CFloat → CFloat → CFloat
  | nan, _ => nan
  | _, nan => nan
  | pinf, ninf => nan
  | ninf, pinf => nan
  | pinf, _ => pinf
  | _, pinf => pinf
  | ninf, _ => ninf
  | _, ninf => ninf
  | fin a, fin b => roundFloat (a + b)

/-- The `float` division `a / n` by a positive integer `n` (converted to
`float` exactly; the program only divides by counts from 1 to 15). -/
def fdiv_count (a : CFloat) (n : ℕ) : CFloat :=
  match a with
  | fin q => roundFloat (q / (n : ℚ))
  | x => x

/-- The `double` expression `(t - 15.0) / 20.0 * 30`, each operation rounded. -/
def gauge_scale : CFloat → CFloat
  | fin q =>
    match roundDouble (q - 15) with
    | fin a =>
      match roundDouble (a / 20) with
      | fin b => roundDouble (b * 30)
      | x => x
    | x => x
  | x => x

/-- `INT_MIN` of a 32-bit `int`. -/
def INT_MIN : ℤ := -2147483648

/-- `INT_MAX` of a 32-bit `int`. -/
def INT_MAX : ℤ := 2147483647

/-- The cast `(int) x`: truncation toward zero; `none` where C leaves the
conversion undefined (NaN, an infinity, or an integral part outside `int`). -/
def cast_int : CFloat → Option ℤ
  | fin q =>
    let t : ℤ := if 0 ≤ q then ⌊q⌋ else -⌊-q⌋
    if INT_MIN ≤ t ∧ t ≤ INT_MAX then some t else none
  | _ => none

/-! ## C strings and `atof` -/

/-- `strstr(haystack, needle)`: the suffix at the first occurrence. -/
def strstr : List Char → List Char → Option (List Char)
  | [], needle => if needle = [] then some [] else none
  | c :: cs, needle =>
    if needle.isPrefixOf (c :: cs) then some (c :: cs) else strstr cs needle

/-- `strchr(s, ch)`: the suffix at the first occurrence of `ch`. -/
def strchr : List Char → Char → Option (List Char)
  | [], _ => none
  | c :: cs, ch => if c = ch then some (c :: cs) else strchr cs ch

/-- `isspace` in the C locale. -/
def isspace (c : Char) : Bool :=
  c = ' ' || c = '\t' || c = '\n' || c = '\x0b' || c = '\x0c' || c = '\r'

/-- `isdigit`. -/
def isdigit (c : Char) : Bool := decide ('0' ≤ c) && decide (c ≤ '9')

/-- `isxdigit`. -/
def isxdigit (c : Char) : Bool :=
  isdigit c || (decide ('a' ≤ c) && decide (c ≤ 'f')) || (decide ('A' ≤ c) && decide (c ≤ 'F'))

/-- Value of a hexadecimal (or decimal) digit character. -/
def xdigitVal (c : Char) : ℕ :=
  if isdigit c then c.toNat - 48
  else if decide ('a' ≤ c) && decide (c ≤ 'f') then c.toNat - 87
  else c.toNat - 55

/-- Value of a digit string in base `b`. -/
def natOfDigits (b : ℕ) (ds : List Char) : ℕ :=
  ds.foldl (fun n c => b * n + xdigitVal c) 0

/-- An optional sign: whether it is a minus, and the text after it. -/
def takeSign : List Char → Bool × List Char
  | '-' :: t => (true, t)
  | '+' :: t => (false, t)
  | s => (false, s)

/-- The exponent part of a number: after the letter `lo` or `up`, an optional
sign and at least one decimal digit. `0` when there is no such part. -/
def parseExp (lo up : Char) : List Char → ℤ
  | c :: t =>
    if c = lo ∨ c = up then
      let ds := (takeSign t).2.takeWhile isdigit
      if ds = [] then 0
      else if (takeSign t).1 then -(natOfDigits 10 ds : ℤ) else (natOfDigits 10 ds : ℤ)
    else 0
  | [] => 0

/-- The fraction part after an integer part: the digits after a `.` and the
text that follows them. -/
def takeFrac (isd : Char → Bool) : List Char → List Char × List Char
  | '.' :: t => (t.takeWhile isd, t.dropWhile isd)
  | s => ([], s)

/-- A decimal floating-point number at the start of `s`: digits with an
optional `.`, at least one digit, and an optional exponent part. -/
def parseDecimal (s : List Char) : Option ℚ :=
  let ip := s.takeWhile isdigit
  let fr := takeFrac isdigit (s.dropWhile isdigit)
  if ip = [] ∧ fr.1 = [] then none
  else some ((natOfDigits 10 (ip ++ fr.1) : ℚ) / (10 : ℚ) ^ fr.1.length
              * (10 : ℚ) ^ parseExp 'e' 'E' fr.2)

/-- A hexadecimal floating-point number at the start of `s`: `0x` or `0X`,
hexadecimal digits with an optional `.`, at least one digit, and an optional
binary exponent part. -/
def parseHex : List Char → Option ℚ
  | '0' :: x :: s =>
    if x = 'x' ∨ x = 'X' then
      let ip := s.takeWhile isxdigit
      let fr := takeFrac isxdigit (s.dropWhile isxdigit)
      if ip = [] ∧ fr.1 = [] then none
      else some ((natOfDigits 16 (ip ++ fr.1) : ℚ) / (16 : ℚ) ^ fr.1.length
                  * (2 : ℚ) ^ parseExp 'p' 'P' fr.2)
    else none
  | _ => none

/-- What the subject sequence of `strtod` denotes, sign apart. -/
inductive Subject where
  | infinity
  | notANumber
  | finite (q : ℚ)
  deriving DecidableEq

/-- The subject sequence of `strtod` after white space and sign: `inf` or
`infinity`, `nan`, a hexadecimal or a decimal number (letters in any case);
`none` when the text has none of these forms. -/
def strtod_subject (s : List Char) : Option Subject :=
  if "inf".toList.isPrefixOf ((s.take 3).map Char.toLower) then some Subject.infinity
  else if "nan".toList.isPrefixOf ((s.take 3).map Char.toLower) then some Subject.notANumber
  else
    match parseHex s with
    | some q => some (Subject.finite q)
    | none => (parseDecimal s).map Subject.finite

/-- The text `atof` parses: its argument after leading white space. -/
def atof_input (s : List Char) : List Char := s.dropWhile isspace

/-- The C library's `atof(s)`, that is `strtod(s, NULL)`: the `double` nearest
to the number at the start of `s`, and `0.0` when no conversion can be
performed. -/
def atof (s : List Char) : CFloat :=
  let t := takeSign (atof_input s)
  match strtod_subject t.2 with
  | none => fin 0
  | some Subject.notANumber => nan
  | some Subject.infinity => if t.1 then ninf else pinf
  | some (Subject.finite q) => roundDouble (if t.1 then -q else q)

/-- The marker `extract_temperature` searches for. -/
def marker : List Char := "temp_c".toList

/-- The loop `while (*pos == ' ' || *pos == '"') pos++;`. -/
def skip_spaces_quotes : List Char → List Char
  | c :: cs => if c = ' ' ∨ c = '"' then skip_spaces_quotes cs else c :: cs
  | [] => []

/-- `float extract_temperature(const char* line)`. -/
def extract_temperature (line : List Char) : CFloat :=
  match strstr line marker with
  | none => fin (-999)
  | some pos =>
    match strchr pos ':' with
    | none => fin (-999)
    | some pos => double_to_float (atof (skip_spaces_quotes pos.tail))

/-- The test `temp > -900` of the read loop and of `draw_screen`. -/
def is_valid (temp : CFloat) : Bool := CFloat.gt temp (fin (-900))

/-! ## Program state -/

/-- `#define MAX_READINGS 15`. -/
def MAX_READINGS : ℕ := 15

/-- `TempReading`: a temperature and the formatted time of its arrival. -/
structure TempReading where
  temperature : CFloat
  time_str : String
  deriving DecidableEq

/-- A zero-initialised `TempReading` (an element of the static array at start). -/
instance : Inhabited TempReading := ⟨⟨fin 0, ""⟩⟩

/-- The text of `status_msg`: the format string of the `snprintf` call that
wrote it, with its `float` argument when it has one. -/
structure Status where
  fmt : String
  temp : Option CFloat
  deriving DecidableEq

/-- An argument of a `printf` call: a string, a floating-point value, an
integer, or the buffer `status_msg`. -/
inductive Arg where
  | str (s : String)
  | flt (v : CFloat)
  | int (n : ℤ)
  | status (m : Status)
  deriving DecidableEq

/-- A `printf` call: the format string and its arguments. -/
structure Printf where
  fmt : String
  args : List Arg
  deriving DecidableEq

/-- The global variables `readings`, `reading_count`, `current_temp` and
`status_msg`. -/
structure State where
  readings : List TempReading
  reading_count : ℕ
  current_temp : CFloat
  status_msg : Status
  deriving DecidableEq

/-- The globals at process start: `reading_count = 0`, `current_temp = 0.0`,
`status_msg = "Starting..."`, the array zero-initialised. -/
def State.init : State :=
  { readings := List.replicate MAX_READINGS default
    reading_count := 0
    current_temp := fin 0
    status_msg := ⟨"Starting...", none⟩ }

/-- The history: the entries `readings[0 .. reading_count - 1]`, oldest first. -/
def State.history (s : State) : List TempReading := s.readings.take s.reading_count

/-- The assignment `readings[i] = readings[i + 1];`. -/
def shift_step (rs : List TempReading) (i : ℕ) : List TempReading :=
  rs.set i (rs.getD (i + 1) default)

/-- The loop `for (i = 0; i < MAX_READINGS - 1; i++) readings[i] = readings[i + 1];`. -/
def shift_readings (rs : List TempReading) : List TempReading :=
  (List.range (MAX_READINGS - 1)).foldl shift_step rs

/-- `void add_temperature(float temp)`; `now_str` is what `strftime` writes for
the current local time. -/
def add_temperature (s : State) (temp : CFloat) (now_str : String) : State :=
  let s1 : State :=
    if s.reading_count ≥ MAX_READINGS then
      { s with readings := shift_readings s.readings, reading_count := MAX_READINGS - 1 }
    else s
  { s1 with
    readings := s1.readings.set s1.reading_count ⟨temp, now_str⟩
    reading_count := s1.reading_count + 1
    current_temp := temp }

/-! ## Rendering -/

def CLEAR_SCREEN : String := "\x1b[2J\x1b[H"
def RED : String := "\x1b[31m"
def GREEN : String := "\x1b[32m"
def YELLOW : String := "\x1b[33m"
def BLUE : String := "\x1b[34m"
def CYAN : String := "\x1b[36m"
def RESET : String := "\x1b[0m"
def BOLD : String := "\x1b[1m"
def FIFO_PATH : String := "/tmp/temp_pipe"

/-- The rule of the title block: 47 characters `=`. -/
def RULE_DOUBLE : String := String.mk (List.replicate 47 '=')

/-- The rule of the history table: 29 characters `─`. -/
def RULE_SINGLE : String := String.mk (List.replicate 29 '─')

/-- `const char* temp_color(float temp)`. -/
def temp_color (temp : CFloat) : String :=
  if CFloat.lt temp (fin 20) then BLUE
  else if CFloat.lt temp (fin 25) then GREEN
  else if CFloat.lt temp (fin 30) then YELLOW
  else RED

/-- The gauge position `pos` of `draw_screen` after both clamps; `none` where
the cast to `int` is undefined. -/
def gauge_pos (t : CFloat) : Option ℤ :=
  (cast_int (gauge_scale t)).map fun pos =>
    let pos := if pos < 0 then 0 else pos
    if pos > 30 then 30 else pos

/-- The marker cell of the gauge, `printf("%s|%s", temp_color(current_temp), RESET)`. -/
def gauge_marker (t : CFloat) : Printf := ⟨"%s|%s", [Arg.str (temp_color t), Arg.str RESET]⟩

/-- The body of the loop `for (i = 0; i < 30; i++)` that prints the gauge. -/
def gauge_cell (t : CFloat) (pos : ℤ) (i : ℕ) : Printf :=
  if (i : ℤ) = pos then gauge_marker t
  else if i % 5 = 0 then ⟨":", []⟩
  else ⟨"-", []⟩

/-- The 30 cells of the gauge row. -/
def gauge_cells (t : CFloat) (pos : ℤ) : List Printf := (List.range 30).map (gauge_cell t pos)

/-- The `NO DATA` branch of the current-value block. -/
def no_data_block : List Printf :=
  [⟨BOLD ++ RED ++ "CURRENT TEMPERATURE:\n", []⟩,
   ⟨"        NO DATA\n", []⟩,
   ⟨RESET ++ "\n", []⟩]

/-- The branch of the current-value block that shows the value and the gauge. -/
def value_block (t : CFloat) (pos : ℤ) : List Printf :=
  [⟨BOLD ++ "CURRENT TEMPERATURE:\n", []⟩,
   ⟨"%s          %6.1f°C\n", [Arg.str (temp_color t), Arg.flt t]⟩,
   ⟨RESET ++ "\n", []⟩,
   ⟨"Temperature Scale:\n", []⟩,
   ⟨"15°C ", []⟩]
  ++ gauge_cells t pos
  ++ [⟨" 35°C\n\n", []⟩]

/-- The current-value block of `draw_screen`: `if (current_temp > -900) ... else ...`. -/
def current_block (s : State) : Option (List Printf) :=
  if is_valid s.current_temp then
    (gauge_pos s.current_temp).map (value_block s.current_temp)
  else some no_data_block

/-- The running `min_t`, `max_t` and `sum` of the statistics loop. -/
structure Stats where
  min_t : CFloat
  max_t : CFloat
  sum : CFloat
  deriving DecidableEq

/-- One iteration of the statistics loop on `readings[i].temperature = t`. -/
def stats_step (a : Stats) (t : CFloat) : Stats :=
  { min_t := if CFloat.lt t a.min_t then t else a.min_t
    max_t := if CFloat.gt t a.max_t then t else a.max_t
    sum := fadd a.sum t }

/-- The statistics loop `for (i = 0; i < reading_count; i++)`, started from
`min_t = max_t = readings[0].temperature` and `sum = 0`. -/
def stats_loop (s : State) : Stats :=
  (List.range s.reading_count).foldl
    (fun a i => stats_step a (s.readings.getD i default).temperature)
    { min_t := (s.readings.getD 0 default).temperature
      max_t := (s.readings.getD 0 default).temperature
      sum := fin 0 }

/-- The average `sum/reading_count` printed by `draw_screen`. -/
def stats_avg (s : State) : CFloat := fdiv_count (stats_loop s).sum s.reading_count

/-- The statistics block: `if (reading_count > 0) ...`. -/
def statistics_block (s : State) : List Printf :=
  if s.reading_count > 0 then
    [⟨"STATISTICS (Last %d readings):\n", [Arg.int s.reading_count]⟩,
     ⟨"Min: %s%.1f°C%s  Max: %s%.1f°C%s  Avg: %s%.1f°C%s\n\n",
      [Arg.str (temp_color (stats_loop s).min_t), Arg.flt (stats_loop s).min_t, Arg.str RESET,
       Arg.str (temp_color (stats_loop s).max_t), Arg.flt (stats_loop s).max_t, Arg.str RESET,
       Arg.str (temp_color (stats_avg s)), Arg.flt (stats_avg s), Arg.str RESET]⟩]
  else []

/-- One row of the history table. -/
def history_row (r : TempReading) : Printf :=
  ⟨"  %s │ %s%6.1f°C%s\n",
   [Arg.str r.time_str, Arg.str (temp_color r.temperature), Arg.flt r.temperature, Arg.str RESET]⟩

/-- The rows printed by `for (i = reading_count - 1; i >= 0; i--)`, newest first. -/
def history_rows (s : State) : List Printf :=
  ((List.range s.reading_count).reverse).map fun i => history_row (s.readings.getD i default)

/-- The history table with its heading and closing rule. -/
def history_block (s : State) : List Printf :=
  [⟨"RECENT READINGS:\n", []⟩,
   ⟨RULE_SINGLE ++ "\n", []⟩,
   ⟨"  Time    │ Temperature\n", []⟩,
   ⟨RULE_SINGLE ++ "\n", []⟩]
  ++ history_rows s
  ++ (if s.reading_count = 0 then [⟨"  No readings yet\n", []⟩] else [])
  ++ [⟨RULE_SINGLE ++ "\n\n", []⟩]

/-- The title block. -/
def header_block : List Printf :=
  [⟨CLEAR_SCREEN, []⟩,
   ⟨BOLD ++ CYAN, []⟩,
   ⟨RULE_DOUBLE ++ "\n", []⟩,
   ⟨"       TEMPERATURE MONITOR\n", []⟩,
   ⟨RULE_DOUBLE ++ "\n", []⟩,
   ⟨RESET ++ "\n", []⟩]

/-- The status line. -/
def status_block (s : State) : List Printf :=
  [⟨"Status: %s%s%s\n\n", [Arg.str YELLOW, Arg.status s.status_msg, Arg.str RESET]⟩]

/-- The footer. -/
def footer_block : List Printf :=
  [⟨"Reading from: %s\n", [Arg.str FIFO_PATH]⟩,
   ⟨"Press Ctrl+C to exit\n", []⟩]

/-- `void draw_screen()`: the `printf` calls of one frame, in order; `none`
where the frame is undefined (the cast of the gauge position). -/
def draw_screen (s : State) : Option (List Printf) :=
  (current_block s).map fun cur =>
    header_block ++ cur ++ status_block s ++ statistics_block s ++ history_block s
      ++ footer_block

/-! ## The driver loop of `main` -/

/-- One rendered frame: the wall-clock second at which `draw_screen` was
called, whether the call was the one behind the test `now != last_display`,
and the frame. -/
structure Render where
  second : ℤ
  gated : Bool
  frame : Option (List Printf)
  deriving DecidableEq

/-- The state of `main`: the globals, the local `last_display`, and the
frames rendered so far, oldest first. -/
structure Driver where
  st : State
  last_display : ℤ
  out : List Render
  deriving DecidableEq

/-- The driver when the outer loop is first entered: `last_display = 0`. -/
def Driver.init : Driver := { st := State.init, last_display := 0, out := [] }

/-- The effect of one read line on the globals: strip the newline, extract,
and on a valid temperature record it and set the status. -/
def process_line (s : State) (raw : List Char) (now_str : String) : State :=
  let line := raw.takeWhile (fun c => c ≠ '\n')
  let temp := extract_temperature line
  if is_valid temp then
    { add_temperature s temp now_str with status_msg := ⟨"Connected ✓ (%.1f°C)", some temp⟩ }
  else s

/-- What happens in one pass through the loops of `main`. Each event carries
the wall-clock second `now` at that point of the run. -/
inductive Event where
  /-- `fopen` fails: status, `draw_screen()`, `sleep(2)`, `continue`. -/
  | fifo_missing (now : ℤ)
  /-- `fopen` succeeds: the status becomes `Connected - reading data...`. -/
  | fifo_opened
  /-- `fgets` returns a line: the body of the inner loop. -/
  | line (raw : List Char) (now_str : String) (now : ℤ)
  /-- The inner loop ends (end of file, read error, or `running == 0`):
  `fclose`, and if still running status, `draw_screen()`, `sleep(2)`. -/
  | fifo_closed (running : Bool) (now : ℤ)
  deriving DecidableEq

/-- The wall-clock second of an event, when it has one. -/
def Event.time : Event → Option ℤ
  | Event.fifo_missing now => some now
  | Event.fifo_opened => none
  | Event.line _ _ now => some now
  | Event.fifo_closed _ now => some now

/-- One step of `main`. -/
def step (d : Driver) : Event → Driver
  | Event.fifo_missing now =>
    let st := { d.st with status_msg := ⟨"FIFO not found - waiting...", none⟩ }
    { d with st := st, out := d.out ++ [⟨now, false, draw_screen st⟩] }
  | Event.fifo_opened =>
    { d with st := { d.st with status_msg := ⟨"Connected - reading data...", none⟩ } }
  | Event.line raw now_str now =>
    let st := process_line d.st raw now_str
    if now ≠ d.last_display then
      { st := st, last_display := now, out := d.out ++ [⟨now, true, draw_screen st⟩] }
    else { d with st := st }
  | Event.fifo_closed running now =>
    if running then
      let st := { d.st with status_msg := ⟨"Connection lost - reconnecting...", none⟩ }
      { d with st := st, out := d.out ++ [⟨now, false, draw_screen st⟩] }
    else d

/-- A run of `main` over a sequence of events. -/
def run (d : Driver) (evs : List Event) : Driver := evs.foldl step d

/-! ## Specification-side definitions -/

/-- The state after pushing the observations `xs` (value and formatted time),
in order, with `add_temperature`. -/
def push_all (s : State) (xs : List (CFloat × String)) : State :=
  xs.foldl (fun s x => add_temperature s x.1 x.2) s

/-- The buffer invariant: the array has `MAX_READINGS` slots and the count is within it. -/
def State.wf (s : State) : Prop :=
  s.readings.length = MAX_READINGS ∧ s.reading_count ≤ MAX_READINGS

/-- The observation recorded for a pushed value and time. -/
def toReading (x : CFloat × String) : TempReading := ⟨x.1, x.2⟩

/-- The characters of an optional sign: none, `+` (`some false`) or `-` (`some true`). -/
def signText : Option Bool → List Char
  | none => []
  | some false => ['+']
  | some true => ['-']

/-- Whether an optional sign is a minus. -/
def signNeg : Option Bool → Bool
  | some true => true
  | _ => false

/-- A decimal numeric literal: an optional sign, the digits before the point,
the digits after the point when there is a point, and an optional exponent
part (its letter, optional sign and digits). -/
structure DecLiteral where
  sign : Option Bool
  intPart : List Char
  fracPart : Option (List Char)
  expPart : Option (Char × Option Bool × List Char)

namespace DecLiteral

/-- The digits after the point (none when there is no point). -/
def fracDigits (d : DecLiteral) : List Char := d.fracPart.getD []

/-- The point and the digits after it. -/
def fracText (d : DecLiteral) : List Char :=
  match d.fracPart with
  | none => []
  | some f => '.' :: f

/-- The exponent part as written. -/
def expText (d : DecLiteral) : List Char :=
  match d.expPart with
  | none => []
  | some (e, s, ds) => e :: (signText s ++ ds)

/-- The exponent the literal denotes. -/
def expValue (d : DecLiteral) : ℤ :=
  match d.expPart with
  | none => 0
  | some (_, s, ds) => if signNeg s then -(natOfDigits 10 ds : ℤ) else (natOfDigits 10 ds : ℤ)

/-- The literal as written. -/
def text (d : DecLiteral) : List Char :=
  signText d.sign ++ (d.intPart ++ (d.fracText ++ d.expText))

/-- The number the literal denotes, exactly. -/
def value (d : DecLiteral) : ℚ :=
  let m : ℚ := (natOfDigits 10 (d.intPart ++ d.fracDigits) : ℚ) / (10 : ℚ) ^ d.fracDigits.length
    * (10 : ℚ) ^ d.expValue
  if signNeg d.sign then -m else m

/-- Well-formedness: digits are digits, there is at least one digit in the
mantissa, and an exponent part has the letter `e` or `E` and at least one digit. -/
def wf (d : DecLiteral) : Prop :=
  (∀ c ∈ d.intPart, isdigit c = true) ∧ (∀ c ∈ d.fracDigits, isdigit c = true) ∧
  (d.intPart ≠ [] ∨ d.fracDigits ≠ []) ∧
  (∀ e ∈ d.expPart, (e.1 = 'e' ∨ e.1 = 'E') ∧ e.2.2 ≠ [] ∧ ∀ c ∈ e.2.2, isdigit c = true)

/-- The literal ends where `rest` begins: `rest` does not start with a
character that would continue the number. -/
def endsAt (d : DecLiteral) (rest : List Char) : Prop :=
  ∀ c ∈ rest.head?, isdigit c = false ∧
    (d.expPart = none → c ≠ 'e' ∧ c ≠ 'E') ∧
    (d.fracPart = none → d.expPart = none → c ≠ '.' ∧ c ≠ 'x' ∧ c ≠ 'X')

instance (d : DecLiteral) : Decidable d.wf := by
  unfold wf; infer_instance

instance (d : DecLiteral) (rest : List Char) : Decidable (d.endsAt rest) :=
  match rest with
  | [] => isTrue (by intro c hc; simp at hc)
  | c :: _ =>
    let i1 : Decidable (d.expPart = none → c ≠ 'e' ∧ c ≠ 'E') := inferInstance
    let i2 : Decidable (d.fracPart = none → d.expPart = none → c ≠ '.' ∧ c ≠ 'x' ∧ c ≠ 'X') :=
      inferInstance
    decidable_of_iff (isdigit c = false ∧
      (d.expPart = none → c ≠ 'e' ∧ c ≠ 'E') ∧
      (d.fracPart = none → d.expPart = none → c ≠ '.' ∧ c ≠ 'x' ∧ c ≠ 'X'))
      (by simp [endsAt])

end DecLiteral

/-- The text `t` begins with a number that `atof` can convert: after white
space and an optional sign stands `inf`, `nan`, or a hexadecimal or decimal
number. -/
def begins_with_number (t : List Char) : Prop :=
  strtod_subject (takeSign (atof_input t)).2 ≠ none

instance (t : List Char) : Decidable (begins_with_number t) := by
  unfold begins_with_number; infer_instance

/-- The status text the read loop writes after a valid temperature. -/
def connected_status (temp : CFloat) : Status := ⟨"Connected ✓ (%.1f°C)", some temp⟩

/-- Every floating-point argument of the `printf` call stands right after a
string argument that is `temp_color` of that value. -/
def Printf.colored (p : Printf) : Prop :=
  ∀ i v, p.args[i]? = some (Arg.flt v) →
    ∃ j, i = j + 1 ∧ p.args[j]? = some (Arg.str (temp_color v))

/-- The sum of a list of `float` values, accumulated from left to right in
`float` arithmetic starting from `0`. -/
def float_sum (vals : List CFloat) : CFloat := vals.foldl fadd (fin 0)

/-- The temperatures of the history, oldest first. -/
def State.values (s : State) : List CFloat := s.history.map TempReading.temperature

/-- The wall-clock seconds of the frames rendered behind the test
`now != last_display`, oldest first. -/
def Driver.gated_seconds (d : Driver) : List ℤ :=
  (d.out.filter Render.gated).map Render.second

/-- The wall-clock seconds of all rendered frames, oldest first. -/
def Driver.seconds (d : Driver) : List ℤ := d.out.map Render.second

/-- The wall-clock seconds of a sequence of events, in order. -/
def event_times (evs : List Event) : List ℤ := evs.filterMap Event.time

/-! ## Lemmas on the history buffer -/

theorem shift_step_length (rs : List TempReading) (i : ℕ) :
    (shift_step rs i).length = rs.length := by
  simp [shift_step]

theorem shift_fold_length (rs : List TempReading) (k : ℕ) :
    ((List.range k).foldl shift_step rs).length = rs.length := by
  induction k with
  | zero => simp
  | succ k ih => rw [List.range_succ, List.foldl_append]; simp [shift_step_length, ih]

/-- The shifting loop after `k` iterations: the first `k` slots hold their right neighbours. -/
theorem shift_fold_getElem? (rs : List TempReading) (k : ℕ) (hk : k < rs.length) (i : ℕ) :
    ((List.range k).foldl shift_step rs)[i]? = if i < k then rs[i + 1]? else rs[i]? := by
  induction k generalizing i with
  | zero => simp
  | succ k ih =>
    have hk' : k < rs.length := by omega
    rw [List.range_succ, List.foldl_append]
    simp only [List.foldl_cons, List.foldl_nil]
    have hnext : ((List.range k).foldl shift_step rs).getD (k + 1) default
        = rs.getD (k + 1) default := by
      rw [List.getD_eq_getElem?_getD, List.getD_eq_getElem?_getD, ih hk' (k + 1)]
      simp
    rw [shift_step, hnext, List.getElem?_set]
    by_cases hik : k = i
    · subst hik
      simp [shift_fold_length, hk', List.getD_eq_getElem?_getD, List.getElem?_eq_getElem hk]
    · rw [if_neg hik, ih hk' i]
      by_cases h1 : i < k
      · simp [h1, Nat.lt_succ_of_lt h1]
      · have : ¬ i < k + 1 := by omega
        simp [h1, this]

theorem shift_readings_length (rs : List TempReading) :
    (shift_readings rs).length = rs.length := shift_fold_length rs _

/-- After the shifting loop the first `MAX_READINGS - 1` slots hold the old
entries `1 .. MAX_READINGS - 1`. -/
theorem shift_readings_take (rs : List TempReading) (h : rs.length = MAX_READINGS) :
    (shift_readings rs).take (MAX_READINGS - 1) = rs.drop 1 := by
  apply List.ext_getElem?
  intro i
  rw [List.getElem?_take, List.getElem?_drop, shift_readings,
    shift_fold_getElem? rs _ (by rw [h]; decide)]
  by_cases hi : i < MAX_READINGS - 1
  · simp [hi, Nat.add_comm]
  · simp only [hi, if_false]
    rw [List.getElem?_eq_none]
    simp [MAX_READINGS] at hi h ⊢
    omega

theorem init_wf : State.init.wf := by
  simp [State.wf, State.init, MAX_READINGS]

theorem init_history : State.init.history = [] := by
  simp [State.history, State.init]

theorem take_succ_set (l : List TempReading) (i : ℕ) (a : TempReading) (h : i < l.length) :
    (l.set i a).take (i + 1) = l.take i ++ [a] := by
  induction l generalizing i with
  | nil => simp at h
  | cons x l ih =>
    cases i with
    | zero => simp
    | succ i => simpa using ih i (by simpa using h)

/-- One push: the history gains the new observation at the end and loses its
oldest entry when it was full. -/
theorem add_temperature_history (s : State) (h : s.wf) (t : CFloat) (n : String) :
    (add_temperature s t n).wf ∧
    (add_temperature s t n).history =
      (s.history ++ [(⟨t, n⟩ : TempReading)]).drop (s.history.length + 1 - MAX_READINGS) := by
  obtain ⟨hlen, hcnt⟩ := h
  by_cases hfull : s.reading_count ≥ MAX_READINGS
  · have hc : s.reading_count = MAX_READINGS := le_antisymm hcnt hfull
    have htake := shift_readings_take s.readings hlen
    have hl := shift_readings_length s.readings
    refine ⟨?_, ?_⟩
    · have h15 : 15 ≤ s.reading_count := hfull
      simp [State.wf, add_temperature, h15, hl, hlen, MAX_READINGS]
    · simp only [State.history, add_temperature, hfull, if_true]
      have h1 : MAX_READINGS - 1 + 1 = MAX_READINGS := by decide
      have h14 : MAX_READINGS - 1 < (shift_readings s.readings).length := by
        rw [hl, hlen]; decide
      have hne : s.readings ≠ [] := by
        intro h0; rw [h0] at hlen; exact absurd hlen (by decide)
      rw [take_succ_set _ _ _ h14, htake, hc, ← hlen, List.take_length]
      simp [hlen, MAX_READINGS, List.tail_append_of_ne_nil hne]
  · have hlt : s.reading_count < MAX_READINGS := Nat.lt_of_not_ge hfull
    refine ⟨?_, ?_⟩
    · simp [State.wf, add_temperature, hfull, hlen]
      omega
    · simp only [State.history, add_temperature, hfull, if_false]
      have hl : s.reading_count < s.readings.length := by rw [hlen]; exact hlt
      rw [take_succ_set _ _ _ hl]
      have : (List.take s.reading_count s.readings).length + 1 - MAX_READINGS = 0 := by
        simp; omega
      rw [this]
      simp

theorem push_all_append (s : State) (xs : List (CFloat × String)) (x : CFloat × String) :
    push_all s (xs ++ [x]) = add_temperature (push_all s xs) x.1 x.2 := by
  simp [push_all, List.foldl_append]

theorem push_all_inv (xs : List (CFloat × String)) :
    (push_all State.init xs).wf ∧
    (push_all State.init xs).history = (xs.drop (xs.length - MAX_READINGS)).map toReading := by
  induction xs using List.reverseRecOn with
  | nil => exact ⟨init_wf, by simp [push_all, init_history]⟩
  | append_singleton xs x ih =>
    obtain ⟨hwf, hh⟩ := ih
    rw [push_all_append]
    obtain ⟨hwf', hh'⟩ := add_temperature_history _ hwf x.1 x.2
    refine ⟨hwf', ?_⟩
    rw [hh', hh]
    simp only [List.length_map, List.length_drop, List.length_append, List.length_singleton]
    by_cases hx : xs.length < MAX_READINGS
    · have e1 : xs.length - MAX_READINGS = 0 := by omega
      have e2 : xs.length + 1 - MAX_READINGS = 0 := by omega
      simp [e1, e2, toReading]
    · have e1 : xs.length - (xs.length - MAX_READINGS) + 1 - MAX_READINGS = 1 := by
        simp [MAX_READINGS] at hx ⊢; omega
      have e2 : xs.length + 1 - MAX_READINGS = (xs.length - MAX_READINGS) + 1 := by
        simp [MAX_READINGS] at hx ⊢; omega
      have e3 : xs.length - MAX_READINGS < xs.length := by
        simp [MAX_READINGS] at hx ⊢; omega
      rw [e1, e2, List.drop_append_of_le_length (by simp; omega),
        List.drop_append_of_le_length (by omega)]
      simp [toReading, List.drop_drop, Nat.add_comm]

/-- C1: after pushing any `N` observations onto the empty history with
`add_temperature`, the history holds exactly the last `min N 15` of them, in
their original order, oldest first; its length is `min N 15`, never above 15. -/
theorem history_holds_last_readings (xs : List (CFloat × String)) :
    (push_all State.init xs).history = (xs.drop (xs.length - MAX_READINGS)).map toReading
    ∧ (push_all State.init xs).reading_count = min xs.length MAX_READINGS
    ∧ (push_all State.init xs).history.length = min xs.length 15
    ∧ (push_all State.init xs).history.length ≤ 15 := by
  obtain ⟨⟨hlen, hcnt⟩, hh⟩ := push_all_inv xs
  have hl : (push_all State.init xs).history.length = min xs.length 15 := by
    rw [hh]; simp [MAX_READINGS]; omega
  refine ⟨hh, ?_, hl, by rw [hl]; omega⟩
  have : (push_all State.init xs).history.length = (push_all State.init xs).reading_count := by
    simp [State.history, hlen, hcnt]
  rw [← this, hl]; rfl

/-! ## The models of `atof` and of rounding on known values -/

/-- Known conversions of `atof`: decimal and hexadecimal numbers, exponents,
infinities, NaN, leading white space, and text that is not a number. -/
theorem atof_known_values :
    atof "23.5".toList = fin 23.5
    ∧ atof "  -1.5e2xyz".toList = fin (-150)
    ∧ atof "\t+.5".toList = fin (1 / 2)
    ∧ atof "0x1.8p1".toList = fin 3
    ∧ atof "0xg".toList = fin 0
    ∧ atof "1e".toList = fin 1
    ∧ atof "-Infinity".toList = ninf
    ∧ atof "inf".toList = pinf
    ∧ atof "NaN".toList = nan
    ∧ double_to_float (atof "1e39".toList) = pinf
    ∧ double_to_float (atof "1e-46".toList) = fin 0
    ∧ atof "".toList = fin 0
    ∧ atof ".".toList = fin 0
    ∧ atof "-".toList = fin 0
    ∧ atof "abc".toList = fin 0
    ∧ atof "0.1".toList = fin (3602879701896397 / 36028797018963968) := by
  refine ⟨by decide!, by decide!, by decide!, by decide!, by decide!, by decide!, by decide!,
    by decide!, by decide!, by decide!, by decide!, by decide!, by decide!, by decide!,
    by decide!, by decide!⟩

/-- Known roundings to `float`: the nearest `float` to `0.1`, the largest
finite `float` and the overflow threshold, the smallest subnormal, ties. -/
theorem roundFloat_known_values :
    roundFloat (1 / 10) = fin (13421773 / 134217728)
    ∧ roundFloat (2 ^ 128 - 2 ^ 104) = fin (2 ^ 128 - 2 ^ 104)
    ∧ roundFloat (2 ^ 128 - 2 ^ 103) = pinf
    ∧ roundFloat (2 ^ 128 - 2 ^ 103 - 1) = fin (2 ^ 128 - 2 ^ 104)
    ∧ roundFloat (-(2 ^ 128)) = ninf
    ∧ roundFloat (1 / 2 ^ 149) = fin (1 / 2 ^ 149)
    ∧ roundFloat (1 / 2 ^ 150) = fin 0
    ∧ roundFloat (3 / 2 ^ 150) = fin (2 / 2 ^ 149)
    ∧ roundFloat (16777217) = fin 16777216
    ∧ roundFloat (16777219) = fin 16777220
    ∧ roundFloat (-999) = fin (-999) := by
  refine ⟨by decide!, by decide!, by decide!, by decide!, by decide!, by decide!, by decide!,
    by decide!, by decide!, by decide!, by decide!⟩

/-! ## The rounding model -/

theorem log2Fuel_spec (fuel n : ℕ) (hn : n ≤ fuel) (hpos : 0 < n) :
    2 ^ log2Fuel fuel n ≤ n ∧ n < 2 ^ (log2Fuel fuel n + 1) := by
  induction fuel generalizing n with
  | zero => omega
  | succ fuel ih =>
    unfold log2Fuel
    by_cases h2 : 2 ≤ n
    · rw [if_pos h2]
      obtain ⟨h1, h3⟩ := ih (n / 2) (by omega) (by omega)
      constructor
      · rw [pow_succ]; omega
      · rw [pow_succ]; omega
    · rw [if_neg h2]
      have : n = 1 := by omega
      subst this
      simp

theorem natLog2_spec (n : ℕ) (hpos : 0 < n) :
    2 ^ natLog2 n ≤ n ∧ n < 2 ^ (natLog2 n + 1) :=
  log2Fuel_spec n n (le_refl n) hpos

theorem binade_bounds (N D A B : ℕ) (hD : 0 < D) (a1 : 2 ^ A ≤ N) (a2 : N < 2 ^ (A + 1))
    (b1 : 2 ^ B ≤ D) (b2 : D < 2 ^ (B + 1)) :
    (2 : ℚ) ^ ((A : ℤ) - (B : ℤ) - 1) ≤ (N : ℚ) / (D : ℚ)
    ∧ (N : ℚ) / (D : ℚ) < (2 : ℚ) ^ ((A : ℤ) - (B : ℤ) + 1) := by
  have hdq : (0 : ℚ) < (D : ℚ) := by exact_mod_cast hD
  have a1q : (2 : ℚ) ^ A ≤ (N : ℚ) := by exact_mod_cast a1
  have a2q : (N : ℚ) < (2 : ℚ) ^ (A + 1) := by exact_mod_cast a2
  have b1q : (2 : ℚ) ^ B ≤ (D : ℚ) := by exact_mod_cast b1
  have b2q : (D : ℚ) < (2 : ℚ) ^ (B + 1) := by exact_mod_cast b2
  have two_ne : (2 : ℚ) ≠ 0 := by norm_num
  constructor
  · rw [show ((A : ℤ) - (B : ℤ) - 1) = (A : ℤ) - ((B + 1 : ℕ) : ℤ) by push_cast; ring,
      zpow_sub₀ two_ne, zpow_natCast, zpow_natCast]
    exact div_le_div₀ (Nat.cast_nonneg N) a1q hdq (le_of_lt b2q)
  · rw [show ((A : ℤ) - (B : ℤ) + 1) = ((A + 1 : ℕ) : ℤ) - (B : ℤ) by push_cast; ring,
      zpow_sub₀ two_ne, zpow_natCast, zpow_natCast]
    exact div_lt_div₀ a2q b1q (by positivity) (by positivity)

/-- The exponent `ilog2 q` is the one of the binade of `q`. -/
theorem ilog2_spec (q : ℚ) (hq : 0 < q) :
    (2 : ℚ) ^ ilog2 q ≤ q ∧ q < (2 : ℚ) ^ (ilog2 q + 1) := by
  have hnum : 0 < q.num := Rat.num_pos.mpr hq
  have hn : 0 < q.num.natAbs := Int.natAbs_pos.mpr (ne_of_gt hnum)
  obtain ⟨a1, a2⟩ := natLog2_spec q.num.natAbs hn
  obtain ⟨b1, b2⟩ := natLog2_spec q.den q.den_pos
  have hb := binade_bounds _ _ _ _ q.den_pos a1 a2 b1 b2
  have hqe : (q.num.natAbs : ℚ) / (q.den : ℚ) = q := by
    have hcast : ((q.num.natAbs : ℕ) : ℚ) = (q.num : ℚ) := by
      rw [Nat.cast_natAbs, abs_of_pos hnum]
    rw [hcast]
    exact Rat.num_div_den q
  rw [hqe] at hb
  unfold ilog2
  simp only
  split
  · next h => exact ⟨h, hb.2⟩
  · next h =>
    refine ⟨hb.1, ?_⟩
    rw [sub_add_cancel]
    exact lt_of_not_le h

theorem roundHalfEven_spec (x : ℚ) (hx : 0 ≤ x) :
    0 ≤ roundHalfEven x ∧ |(roundHalfEven x : ℚ) - x| ≤ 1 / 2 := by
  have hf0 : (0 : ℤ) ≤ ⌊x⌋ := Int.floor_nonneg.mpr hx
  have hf1 : (⌊x⌋ : ℚ) ≤ x := Int.floor_le x
  have hf2 : x < (⌊x⌋ : ℚ) + 1 := Int.lt_floor_add_one x
  unfold roundHalfEven
  simp only
  split
  · next h =>
    refine ⟨hf0, ?_⟩
    rw [abs_le]; constructor <;> linarith
  · split
    · next h1 h2 =>
      refine ⟨by omega, ?_⟩
      push_cast
      rw [abs_le]; constructor <;> linarith
    · next h1 h2 =>
      have hr : x - (⌊x⌋ : ℚ) = 1 / 2 := le_antisymm (not_lt.mp h2) (not_lt.mp h1)
      split
      · refine ⟨hf0, ?_⟩
        rw [abs_le]; constructor <;> linarith
      · refine ⟨by omega, ?_⟩
        push_cast
        rw [abs_le]; constructor <;> linarith

/-- The result of rounding is finite and at most twice the exact value (up
to the smallest positive number of the format) when that fits the format. -/
theorem roundBinary_bound (p : ℕ) (emin emax : ℤ) (q : ℚ) (hp : 1 ≤ p)
    (hfit : 2 * |q| + (2 : ℚ) ^ (emin - ((p : ℤ) - 1)) < (2 : ℚ) ^ (emax + 1)) :
    ∃ r, roundBinary p emin emax q = fin r
      ∧ |r| ≤ 2 * |q| + (2 : ℚ) ^ (emin - ((p : ℤ) - 1)) := by
  have hu0 : (0 : ℚ) < (2 : ℚ) ^ (emin - ((p : ℤ) - 1)) := by positivity
  by_cases hq : q = 0
  · refine ⟨0, by simp [roundBinary, hq], ?_⟩
    simp only [abs_zero]
    positivity
  · have ha : 0 < |q| := abs_pos.mpr hq
    have hulp : (0 : ℚ) < (2 : ℚ) ^ (max (ilog2 |q|) emin - ((p : ℤ) - 1)) := by positivity
    obtain ⟨hm0, hm1⟩ := roundHalfEven_spec
      (|q| / (2 : ℚ) ^ (max (ilog2 |q|) emin - ((p : ℤ) - 1))) (by positivity)
    have hm0q : (0 : ℚ) ≤ (roundHalfEven
        (|q| / (2 : ℚ) ^ (max (ilog2 |q|) emin - ((p : ℤ) - 1))) : ℚ) := by exact_mod_cast hm0
    have hR : (roundHalfEven (|q| / (2 : ℚ) ^ (max (ilog2 |q|) emin - ((p : ℤ) - 1))) : ℚ)
        * (2 : ℚ) ^ (max (ilog2 |q|) emin - ((p : ℤ) - 1))
        ≤ |q| + (2 : ℚ) ^ (max (ilog2 |q|) emin - ((p : ℤ) - 1)) := by
      have h1 := (abs_le.mp hm1).2
      have h2 : (roundHalfEven (|q| / (2 : ℚ) ^ (max (ilog2 |q|) emin - ((p : ℤ) - 1))) : ℚ)
          ≤ |q| / (2 : ℚ) ^ (max (ilog2 |q|) emin - ((p : ℤ) - 1)) + 1 := by linarith
      calc _ ≤ (|q| / (2 : ℚ) ^ (max (ilog2 |q|) emin - ((p : ℤ) - 1)) + 1)
              * (2 : ℚ) ^ (max (ilog2 |q|) emin - ((p : ℤ) - 1)) :=
            mul_le_mul_of_nonneg_right h2 (le_of_lt hulp)
        _ = |q| + (2 : ℚ) ^ (max (ilog2 |q|) emin - ((p : ℤ) - 1)) := by
            field_simp
    have hulp_le : (2 : ℚ) ^ (max (ilog2 |q|) emin - ((p : ℤ) - 1))
        ≤ |q| + (2 : ℚ) ^ (emin - ((p : ℤ) - 1)) := by
      rcases le_total (ilog2 |q|) emin with h | h
      · rw [max_eq_right h]
        linarith
      · rw [max_eq_left h]
        have h1 : (2 : ℚ) ^ (ilog2 |q| - ((p : ℤ) - 1)) ≤ (2 : ℚ) ^ (ilog2 |q|) :=
          zpow_le_zpow_right₀ (by norm_num) (by omega)
        have h2 := (ilog2_spec |q| ha).1
        linarith
    have hnonneg : (0 : ℚ) ≤ (roundHalfEven
        (|q| / (2 : ℚ) ^ (max (ilog2 |q|) emin - ((p : ℤ) - 1))) : ℚ)
        * (2 : ℚ) ^ (max (ilog2 |q|) emin - ((p : ℤ) - 1)) :=
      mul_nonneg hm0q (le_of_lt hulp)
    have hnot : ¬ ((2 : ℚ) ^ (emax + 1) ≤ (roundHalfEven
        (|q| / (2 : ℚ) ^ (max (ilog2 |q|) emin - ((p : ℤ) - 1))) : ℚ)
        * (2 : ℚ) ^ (max (ilog2 |q|) emin - ((p : ℤ) - 1))) := by
      intro h
      linarith
    refine ⟨_, by simp only [roundBinary, hq, if_false, hnot]; rfl, ?_⟩
    split
    · rw [abs_neg, abs_of_nonneg hnonneg]; linarith
    · rw [abs_of_nonneg hnonneg]; linarith

/-- A finite result of rounding is a multiple of the spacing of the format at
the exact value, has the sign of the exact value, and lies within half that
spacing of it. -/
theorem roundBinary_nearest (p : ℕ) (emin emax : ℤ) (q r : ℚ) (hq : q ≠ 0)
    (h : roundBinary p emin emax q = fin r) :
    ∃ m : ℤ, 0 ≤ m
      ∧ r = (if q < 0 then -1 else 1)
          * ((m : ℚ) * (2 : ℚ) ^ (max (ilog2 |q|) emin - ((p : ℤ) - 1)))
      ∧ |r - q| ≤ (2 : ℚ) ^ (max (ilog2 |q|) emin - ((p : ℤ) - 1)) / 2 := by
  have hulp : (0 : ℚ) < (2 : ℚ) ^ (max (ilog2 |q|) emin - ((p : ℤ) - 1)) := by positivity
  simp only [roundBinary, hq, if_false] at h
  generalize (2 : ℚ) ^ (max (ilog2 |q|) emin - ((p : ℤ) - 1)) = u at h hulp ⊢
  obtain ⟨hm0, hm1⟩ := roundHalfEven_spec (|q| / u) (by positivity)
  generalize roundHalfEven (|q| / u) = m at h hm0 hm1
  have hdist : |(m : ℚ) * u - (|q|)| ≤ u / 2 := by
    have e : (m : ℚ) * u - (|q|) = ((m : ℚ) - (|q|) / u) * u := by field_simp
    rw [e, abs_mul, abs_of_pos hulp]
    calc _ ≤ 1 / 2 * u := mul_le_mul_of_nonneg_right hm1 (le_of_lt hulp)
      _ = _ := by ring
  split at h
  · split at h <;> cases h
  · have hr := CFloat.fin.inj h
    refine ⟨m, hm0, ?_, ?_⟩
    · rw [← hr]
      split <;> ring
    · rw [← hr]
      split
      · next hneg =>
        rw [abs_of_neg hneg] at hdist
        have e2 : -((m : ℚ) * u) - q = -((m : ℚ) * u - -q) := by ring
        rw [e2, abs_neg]
        exact hdist
      · next hneg =>
        rw [abs_of_nonneg (not_lt.mp hneg)] at hdist
        exact hdist

theorem roundDouble_bound (q : ℚ) (hq : |q| ≤ 10 ^ 300) :
    ∃ r, roundDouble q = fin r ∧ |r| ≤ 2 * |q| + 1 := by
  have hu : (2 : ℚ) ^ ((-1022 : ℤ) - (((53 : ℕ) : ℤ) - 1)) ≤ 1 :=
    zpow_le_one_of_nonpos₀ (by norm_num) (by norm_num)
  have hbig : (2 : ℚ) * 10 ^ 300 + 1 < (2 : ℚ) ^ ((1023 : ℤ) + 1) := by
    rw [show ((1023 : ℤ) + 1) = ((1024 : ℕ) : ℤ) by norm_num, zpow_natCast]
    norm_num
  obtain ⟨r, h1, h2⟩ := roundBinary_bound 53 (-1022) 1023 q (by norm_num) (by linarith)
  exact ⟨r, h1, by linarith⟩

theorem cast_int_defined (c : ℚ) (hc : |c| ≤ 2147483647) :
    ∃ t, cast_int (fin c) = some t := by
  obtain ⟨h1, h2⟩ := abs_le.mp hc
  unfold cast_int
  simp only
  by_cases h0 : 0 ≤ c
  · have hf0 : (0 : ℤ) ≤ ⌊c⌋ := Int.floor_nonneg.mpr h0
    have hf1 : (⌊c⌋ : ℚ) ≤ c := Int.floor_le c
    have hf : ⌊c⌋ ≤ 2147483647 := by
      have : (⌊c⌋ : ℚ) ≤ 2147483647 := le_trans hf1 h2
      exact_mod_cast this
    exact ⟨⌊c⌋, by simp [h0, INT_MIN, INT_MAX, hf]; omega⟩
  · have hneg : 0 ≤ -c := by linarith
    have hf0 : (0 : ℤ) ≤ ⌊-c⌋ := Int.floor_nonneg.mpr hneg
    have hf1 : (⌊-c⌋ : ℚ) ≤ -c := Int.floor_le (-c)
    have hf : ⌊-c⌋ ≤ 2147483647 := by
      have : (⌊-c⌋ : ℚ) ≤ 2147483647 := by linarith
      exact_mod_cast this
    exact ⟨-⌊-c⌋, by simp [h0, INT_MIN, INT_MAX]; omega⟩

/-- The gauge position is defined for every current temperature of
magnitude at most `10 ^ 8`. -/
theorem gauge_pos_defined (q : ℚ) (hq : |q| ≤ 100000000) :
    ∃ pos, gauge_pos (fin q) = some pos ∧ 0 ≤ pos ∧ pos ≤ 30 := by
  obtain ⟨h1, h2⟩ := abs_le.mp hq
  have hB1 : |q - 15| ≤ 100000015 := by rw [abs_le]; constructor <;> linarith
  obtain ⟨a, ha, hab⟩ := roundDouble_bound (q - 15) (le_trans hB1 (by norm_num))
  have hB2 : |a / 20| ≤ 10000002 := by
    rw [abs_div, abs_of_pos (by norm_num : (0 : ℚ) < 20), div_le_iff₀ (by norm_num)]
    linarith
  obtain ⟨b, hb, hbb⟩ := roundDouble_bound (a / 20) (le_trans hB2 (by norm_num))
  have hB3 : |b * 30| ≤ 600000150 := by
    rw [abs_mul, abs_of_pos (by norm_num : (0 : ℚ) < 30)]
    linarith
  obtain ⟨c, hc, hcb⟩ := roundDouble_bound (b * 30) (le_trans hB3 (by norm_num))
  obtain ⟨t, ht⟩ := cast_int_defined c (by linarith)
  have hs : gauge_scale (fin q) = fin c := by
    simp only [gauge_scale, ha, hb, hc]
  have hp : gauge_pos (fin q)
      = some (if (if t < 0 then 0 else t) > 30 then 30 else (if t < 0 then 0 else t)) := by
    simp only [gauge_pos, hs, ht, Option.map_some']
  refine ⟨_, hp, ?_, ?_⟩ <;> split_ifs <;> omega

/-- The frame of `draw_screen` is defined in every state whose current
temperature is finite of magnitude at most `10 ^ 8`. -/
theorem draw_screen_defined (s : State) (q : ℚ) (hq : s.current_temp = fin q)
    (hr : |q| ≤ 100000000) : ∃ f, draw_screen s = some f := by
  obtain ⟨pos, hpos, _⟩ := gauge_pos_defined q hr
  unfold draw_screen current_block
  rw [hq, hpos]
  split <;> exact ⟨_, rfl⟩

/-- Relative accuracy of rounding in the normal range of a format: the result
is finite and within `|q| * 2 ^ (-p)` of the exact value `q`. -/
theorem roundBinary_rel (p : ℕ) (emin emax : ℤ) (q : ℚ) (hp : 1 ≤ p)
    (hlo : (2 : ℚ) ^ emin ≤ |q|)
    (hfit : 2 * |q| + (2 : ℚ) ^ (emin - ((p : ℤ) - 1)) < (2 : ℚ) ^ (emax + 1)) :
    ∃ r, roundBinary p emin emax q = fin r ∧ |r - q| ≤ |q| * (2 : ℚ) ^ (-(p : ℤ)) := by
  have hpos : 0 < |q| := lt_of_lt_of_le (by positivity) hlo
  have hq : q ≠ 0 := abs_pos.mp hpos
  obtain ⟨r, hr, _⟩ := roundBinary_bound p emin emax q hp hfit
  obtain ⟨m, _, _, hdist⟩ := roundBinary_nearest p emin emax q r hq hr
  obtain ⟨h1, h2⟩ := ilog2_spec |q| hpos
  have hge : emin ≤ ilog2 |q| := by
    have : (2 : ℚ) ^ emin < (2 : ℚ) ^ (ilog2 |q| + 1) := lt_of_le_of_lt hlo h2
    have := (zpow_lt_zpow_iff_right₀ (by norm_num : (1 : ℚ) < 2)).mp this
    omega
  rw [max_eq_left hge] at hdist
  refine ⟨r, hr, le_trans hdist ?_⟩
  have e : (2 : ℚ) ^ (ilog2 |q| - ((p : ℤ) - 1)) / 2
      = (2 : ℚ) ^ (ilog2 |q|) * (2 : ℚ) ^ (-(p : ℤ)) := by
    rw [show ilog2 |q| - ((p : ℤ) - 1) = ilog2 |q| + -(p : ℤ) + 1 by ring,
      zpow_add₀ (by norm_num : (2 : ℚ) ≠ 0), zpow_add₀ (by norm_num : (2 : ℚ) ≠ 0)]
    simp
  rw [e]
  exact mul_le_mul_of_nonneg_right h1 (by positivity)

/-- The conversion of a decimal value to `double` and then to `float`, as
`extract_temperature` performs it, is accurate to `2 ^ (-23)` of the value,
for values that are zero or of magnitude between `2 ^ (-100)` and `2 ^ 100`. -/
theorem double_to_float_roundDouble_close (v : ℚ)
    (hv : v = 0 ∨ ((1 : ℚ) / 2 ^ 100 ≤ |v| ∧ |v| ≤ 2 ^ 100)) :
    ∃ r, double_to_float (roundDouble v) = fin r ∧ |r - v| ≤ |v| / 2 ^ 23 := by
  rcases hv with rfl | ⟨hlo, hhi⟩
  · exact ⟨0, by simp [roundDouble, roundBinary, double_to_float, roundFloat], by simp⟩
  · have hvpos : 0 < |v| := lt_of_lt_of_le (by positivity) hlo
    have hu53 : (2 : ℚ) ^ ((-1022 : ℤ) - (((53 : ℕ) : ℤ) - 1)) ≤ 1 :=
      zpow_le_one_of_nonpos₀ (by norm_num) (by norm_num)
    have hu24 : (2 : ℚ) ^ ((-126 : ℤ) - (((24 : ℕ) : ℤ) - 1)) ≤ 1 :=
      zpow_le_one_of_nonpos₀ (by norm_num) (by norm_num)
    have hmin53 : (2 : ℚ) ^ (-1022 : ℤ) ≤ 1 / 2 ^ 100 := by
      rw [show (1 : ℚ) / 2 ^ 100 = (2 : ℚ) ^ (-100 : ℤ) by norm_num]
      exact zpow_le_zpow_right₀ (by norm_num) (by norm_num)
    have hmax53 : (2 : ℚ) * 2 ^ 100 + 1 < (2 : ℚ) ^ ((1023 : ℤ) + 1) := by
      rw [show ((1023 : ℤ) + 1) = ((1024 : ℕ) : ℤ) by norm_num, zpow_natCast]
      norm_num
    obtain ⟨d, hd, hdd⟩ := roundBinary_rel 53 (-1022) 1023 v (by norm_num)
      (le_trans hmin53 hlo) (by linarith)
    have h53 : (2 : ℚ) ^ (-((53 : ℕ) : ℤ)) = 1 / 2 ^ 53 := by norm_num
    rw [h53] at hdd
    have hdabs1 : |d| ≤ |v| + |v| * (1 / 2 ^ 53) := by
      calc |d| = |(d - v) + v| := by ring_nf
        _ ≤ |d - v| + |v| := abs_add _ _
        _ ≤ |v| + |v| * (1 / 2 ^ 53) := by linarith
    have hdabs2 : |v| - |v| * (1 / 2 ^ 53) ≤ |d| := by
      have : |v| ≤ |v - d| + |d| := by
        calc |v| = |(v - d) + d| := by ring_nf
          _ ≤ |v - d| + |d| := abs_add _ _
      rw [abs_sub_comm] at this
      linarith
    have hmin24 : (2 : ℚ) ^ (-126 : ℤ) ≤ |d| := by
      have h1 : (2 : ℚ) ^ (-126 : ℤ) ≤ 1 / 2 ^ 101 := by
        rw [show (1 : ℚ) / 2 ^ 101 = (2 : ℚ) ^ (-101 : ℤ) by norm_num]
        exact zpow_le_zpow_right₀ (by norm_num) (by norm_num)
      have h2 : (1 : ℚ) / 2 ^ 101 ≤ |v| - |v| * (1 / 2 ^ 53) := by
        have : |v| - |v| * (1 / 2 ^ 53) = |v| * (1 - 1 / 2 ^ 53) := by ring
        rw [this]
        calc (1 : ℚ) / 2 ^ 101 = 1 / 2 ^ 100 * (1 / 2) := by norm_num
          _ ≤ |v| * (1 - 1 / 2 ^ 53) :=
            mul_le_mul hlo (by norm_num) (by norm_num) (le_of_lt hvpos)
      exact le_trans h1 (le_trans h2 hdabs2)
    have hdle : |d| ≤ 2 ^ 101 := by
      have : |v| * (1 / 2 ^ 53) ≤ |v| := by
        calc |v| * (1 / 2 ^ 53) ≤ |v| * 1 :=
              mul_le_mul_of_nonneg_left (by norm_num) (le_of_lt hvpos)
          _ = |v| := mul_one _
      have h2 : (2 : ℚ) ^ 100 + 2 ^ 100 = 2 ^ 101 := by norm_num
      linarith
    have hmax24 : (2 : ℚ) * 2 ^ 101 + 1 < (2 : ℚ) ^ ((127 : ℤ) + 1) := by
      rw [show ((127 : ℤ) + 1) = ((128 : ℕ) : ℤ) by norm_num, zpow_natCast]
      norm_num
    obtain ⟨r, hr, hrd⟩ := roundBinary_rel 24 (-126) 127 d (by norm_num) hmin24 (by linarith)
    have h24 : (2 : ℚ) ^ (-((24 : ℕ) : ℤ)) = 1 / 2 ^ 24 := by norm_num
    rw [h24] at hrd
    refine ⟨r, ?_, ?_⟩
    · show double_to_float (roundBinary 53 (-1022) 1023 v) = fin r
      rw [hd]
      exact hr
    · calc |r - v| = |(r - d) + (d - v)| := by ring_nf
        _ ≤ |r - d| + |d - v| := abs_add _ _
        _ ≤ |d| * (1 / 2 ^ 24) + |v| * (1 / 2 ^ 53) := by linarith
        _ ≤ (|v| + |v| * (1 / 2 ^ 53)) * (1 / 2 ^ 24) + |v| * (1 / 2 ^ 53) := by
            have := mul_le_mul_of_nonneg_right hdabs1
              (by norm_num : (0 : ℚ) ≤ 1 / 2 ^ 24)
            linarith
        _ = |v| * ((1 + 1 / 2 ^ 53) * (1 / 2 ^ 24) + 1 / 2 ^ 53) := by ring
        _ ≤ |v| * (1 / 2 ^ 23) :=
            mul_le_mul_of_nonneg_left (by norm_num) (le_of_lt hvpos)
        _ = |v| / 2 ^ 23 := by ring

/-! ## Lemmas on the extractor -/

theorem strstr_eq_none (needle : List Char) (l : List Char) :
    strstr l needle = none ↔ ¬ needle <:+: l := by
  induction l with
  | nil =>
    by_cases h : needle = []
    · simp [strstr, h]
    · simp [strstr, h]
  | cons c cs ih =>
    unfold strstr
    by_cases hp : needle.isPrefixOf (c :: cs) = true
    · simp only [hp, if_true]
      have : needle <+: c :: cs := List.isPrefixOf_iff_prefix.mp hp
      simp [this.isInfix]
    · simp only [hp]
      have hnp : ¬ needle <+: c :: cs := fun h => hp (List.isPrefixOf_iff_prefix.mpr h)
      rw [if_neg (by simp), ih, List.infix_cons_iff]
      simp [hnp]

/-- The pointer `strstr` returns is at the first occurrence of the needle. -/
theorem strstr_first (needle pre post : List Char)
    (hfirst : ∀ pre' post', pre ++ needle ++ post = pre' ++ needle ++ post' →
      pre.length ≤ pre'.length) :
    strstr (pre ++ needle ++ post) needle = some (needle ++ post) := by
  induction pre with
  | nil =>
    cases hl : needle ++ post with
    | nil =>
      have h1 : needle = [] := (List.append_eq_nil.mp hl).1
      have h2 : post = [] := (List.append_eq_nil.mp hl).2
      simp [strstr, h1, h2]
    | cons c cs =>
      have hp : needle.isPrefixOf (c :: cs) = true := by
        rw [← hl]; exact List.isPrefixOf_iff_prefix.mpr (List.prefix_append _ _)
      simp [strstr, hl, hp]
  | cons c pre ih =>
    have hnp : ¬ needle.isPrefixOf (c :: (pre ++ needle ++ post)) = true := by
      intro hp
      obtain ⟨t, ht⟩ := List.isPrefixOf_iff_prefix.mp hp
      have := hfirst [] t (by simpa using ht.symm)
      simp at this
    have hrec : strstr (pre ++ needle ++ post) needle = some (needle ++ post) := by
      apply ih
      intro pre' post' h
      have := hfirst (c :: pre') post' (by simpa using h)
      simpa using this
    have : c :: pre ++ needle ++ post = c :: (pre ++ needle ++ post) := by simp
    rw [this, strstr, if_neg hnp, hrec]

/-- When `strstr` returns the text from an occurrence on, that occurrence is the first. -/
theorem first_of_strstr (needle pre post : List Char)
    (h : strstr (pre ++ needle ++ post) needle = some (needle ++ post)) :
    ∀ pre' post', pre ++ needle ++ post = pre' ++ needle ++ post' →
      pre.length ≤ pre'.length := by
  induction pre with
  | nil => intro _ _ _; simp
  | cons c pre ih =>
    have hl : c :: pre ++ needle ++ post = c :: (pre ++ needle ++ post) := by simp
    rw [hl, strstr] at h
    by_cases hp : needle.isPrefixOf (c :: (pre ++ needle ++ post)) = true
    · rw [if_pos hp] at h
      have := congrArg List.length (Option.some.inj h)
      simp at this
      omega
    · rw [if_neg hp] at h
      intro pre' post' heq
      cases pre' with
      | nil =>
        exfalso
        apply hp
        rw [List.isPrefixOf_iff_prefix]
        refine ⟨post', ?_⟩
        rw [hl] at heq
        simpa using heq.symm
      | cons c' pre'' =>
        rw [hl] at heq
        simp only [List.cons_append, List.cons.injEq] at heq
        have := ih h pre'' post' (by simpa using heq.2)
        simpa using this

theorem strchr_eq_none (s : List Char) (ch : Char) : strchr s ch = none ↔ ch ∉ s := by
  induction s with
  | nil => simp [strchr]
  | cons c cs ih =>
    unfold strchr
    by_cases h : c = ch
    · simp [h]
    · simp [h, ih, Ne.symm h]

/-- The pointer `strchr` returns is at the first occurrence of the character. -/
theorem strchr_first (mid post : List Char) (ch : Char) (h : ch ∉ mid) :
    strchr (mid ++ ch :: post) ch = some (ch :: post) := by
  induction mid with
  | nil => simp [strchr]
  | cons c cs ih =>
    have hc : c ≠ ch := fun e => h (by simp [e])
    have : ch ∉ cs := fun e => h (by simp [e])
    simp [strchr, hc, ih this]

/-- C3: a line without the substring `temp_c`, and a line with it but with no
`:` after its first occurrence, both give the sentinel `-999`, which the test
`temp > -900` of the read loop rejects. -/
theorem extract_temperature_absent (line : List Char)
    (h : ¬ marker <:+: line ∨
      ∃ pre post, line = pre ++ marker ++ post ∧
        (∀ pre' post', line = pre' ++ marker ++ post' → pre.length ≤ pre'.length) ∧
        ':' ∉ post) :
    extract_temperature line = fin (-999) ∧ is_valid (extract_temperature line) = false := by
  have key : extract_temperature line = fin (-999) := by
    rcases h with h | ⟨pre, post, rfl, hfirst, hcolon⟩
    · simp [extract_temperature, (strstr_eq_none marker line).mpr h]
    · have hs := strstr_first marker pre post hfirst
      have hc : strchr (marker ++ post) ':' = none := by
        rw [strchr_eq_none]
        simp only [List.mem_append, not_or]
        exact ⟨by decide, hcolon⟩
      unfold extract_temperature
      rw [hs]
      simp only [hc]
  rw [key]
  exact ⟨rfl, by decide!⟩

theorem extract_temperature_absent_witness :
    extract_temperature "no marker here".toList = fin (-999) ∧
      is_valid (extract_temperature "no marker here".toList) = false :=
  extract_temperature_absent "no marker here".toList
    (Or.inl ((strstr_eq_none marker _).mp (by decide)))

/-! ## The extractor on a decimal literal -/

theorem span_append (p : Char → Bool) (a b : List Char) (ha : ∀ c ∈ a, p c = true)
    (hb : ∀ c ∈ b.head?, p c = false) :
    (a ++ b).takeWhile p = a ∧ (a ++ b).dropWhile p = b := by
  induction a with
  | nil =>
    cases b with
    | nil => simp
    | cons c cs =>
      have : p c = false := hb c (by simp)
      simp [List.takeWhile, List.dropWhile, this]
  | cons x a ih =>
    have hx : p x = true := ha x (by simp)
    have := ih (fun c hc => ha c (by simp [hc]))
    simp [List.takeWhile, List.dropWhile, hx, this]

theorem isdigit_not_special (c : Char) (h : isdigit c = true) :
    c ≠ ' ' ∧ c ≠ '"' ∧ c ≠ '+' ∧ c ≠ '-' ∧ c ≠ '.' ∧ c ≠ 'e' ∧ c ≠ 'E' ∧ c ≠ 'x' ∧ c ≠ 'X'
      ∧ isspace c = false ∧ c.toLower = c := by
  have h1 : 48 ≤ c.toNat ∧ c.toNat ≤ 57 := by
    simp only [isdigit, Bool.and_eq_true, decide_eq_true_eq] at h
    exact ⟨h.1, h.2⟩
  have hne : ∀ k : Char, (k.toNat < 48 ∨ 57 < k.toNat) → c ≠ k := by
    rintro k hk rfl
    omega
  refine ⟨hne _ (by decide), hne _ (by decide), hne _ (by decide), hne _ (by decide),
    hne _ (by decide), hne _ (by decide), hne _ (by decide), hne _ (by decide),
    hne _ (by decide), ?_, ?_⟩
  · simp only [isspace, Bool.or_eq_false_iff, decide_eq_false_iff_not]
    refine ⟨⟨⟨⟨⟨hne _ (by decide), hne _ (by decide)⟩, hne _ (by decide)⟩, hne _ (by decide)⟩,
      hne _ (by decide)⟩, hne _ (by decide)⟩
  · simp only [Char.toLower]
    simp
    intro h65
    omega
theorem takeSign_unsigned (s : List Char) (h : ∀ c ∈ s.head?, c ≠ '-' ∧ c ≠ '+') :
    takeSign s = (false, s) := by
  cases s with
  | nil => rfl
  | cons c t =>
    obtain ⟨h1, h2⟩ := h c (by simp)
    unfold takeSign
    split
    · next heq => simp at heq; exact absurd heq.1 h1
    · next heq => simp at heq; exact absurd heq.1 h2
    · rfl

theorem takeSign_signText (sg : Option Bool) (s : List Char)
    (h : ∀ c ∈ s.head?, c ≠ '-' ∧ c ≠ '+') :
    takeSign (signText sg ++ s) = (signNeg sg, s) := by
  cases sg with
  | none => simpa [signText, signNeg] using takeSign_unsigned s h
  | some b => cases b <;> simp [signText, signNeg, takeSign]

namespace DecLiteral

/-- The tail of a literal from its exponent part on, followed by `rest`. -/
theorem expTail_head (d : DecLiteral) (rest : List Char) (hd : d.wf) (hr : d.endsAt rest) :
    ∀ c ∈ (d.expText ++ rest).head?, isdigit c = false ∧
      (d.fracPart = none → c ≠ '.' ∧ c ≠ 'x' ∧ c ≠ 'X') := by
  intro c hc
  cases he : d.expPart with
  | none =>
    simp only [expText, he, List.nil_append] at hc
    have := hr c hc
    exact ⟨this.1, fun hf => this.2.2 hf he⟩
  | some e =>
    obtain ⟨l, s, ds⟩ := e
    simp only [expText, he, List.cons_append, List.head?_cons, Option.mem_def,
      Option.some.injEq] at hc
    subst hc
    have hl := (hd.2.2.2 (l, s, ds) (by simp [he])).1
    rcases hl with hl | hl <;> simp at hl <;> subst hl <;> exact ⟨by decide, fun _ => by decide⟩

theorem parseExp_expText (d : DecLiteral) (rest : List Char) (hd : d.wf) (hr : d.endsAt rest) :
    parseExp 'e' 'E' (d.expText ++ rest) = d.expValue := by
  cases he : d.expPart with
  | none =>
    simp only [expText, expValue, he, List.nil_append]
    cases rest with
    | nil => rfl
    | cons c t =>
      have := ((hr c (by simp)).2.1 he)
      simp [parseExp, this.1, this.2]
  | some e =>
    obtain ⟨l, s, ds⟩ := e
    obtain ⟨hl, hne, hds⟩ := hd.2.2.2 (l, s, ds) (by simp [he])
    simp only at hl hne hds
    have hrest : ∀ c ∈ rest.head?, isdigit c = false := fun c hc => (hr c hc).1
    have hhead : ∀ c ∈ (ds ++ rest).head?, c ≠ '-' ∧ c ≠ '+' := by
      intro c hc
      cases ds with
      | nil => exact absurd rfl hne
      | cons x xs =>
        simp at hc
        subst hc
        have := isdigit_not_special x (hds x (by simp))
        exact ⟨this.2.2.2.1, this.2.2.1⟩
    have hsign := takeSign_signText s (ds ++ rest) hhead
    have hspan := (span_append isdigit ds rest hds hrest).1
    simp only [expText, expValue, he, List.cons_append, parseExp, List.append_assoc, hsign,
      hspan, if_neg hne]
    rw [if_pos hl]

theorem takeFrac_fracText (d : DecLiteral) (rest : List Char) (hd : d.wf)
    (hr : d.endsAt rest) :
    takeFrac isdigit (d.fracText ++ (d.expText ++ rest)) = (d.fracDigits, d.expText ++ rest) := by
  have hX := expTail_head d rest hd hr
  cases hf : d.fracPart with
  | none =>
    simp only [fracText, fracDigits, hf, List.nil_append, Option.getD_none]
    cases hX' : d.expText ++ rest with
    | nil => rfl
    | cons c t =>
      have := ((hX c (by simp [hX'])).2 hf).1
      unfold takeFrac
      split
      · next heq => simp at heq; exact absurd heq.1 this
      · rfl
  | some f =>
    have hfd : ∀ c ∈ f, isdigit c = true := by
      have := hd.2.1
      simpa [fracDigits, hf] using this
    have := span_append isdigit f (d.expText ++ rest) hfd (fun c hc => (hX c hc).1)
    simp [fracText, fracDigits, hf, takeFrac, this.1, this.2]

/-- The text from the point on, followed by `rest`, does not start with a digit. -/
theorem fracTail_head (d : DecLiteral) (rest : List Char) (hd : d.wf) (hr : d.endsAt rest) :
    ∀ c ∈ (d.fracText ++ (d.expText ++ rest)).head?,
      isdigit c = false ∧ c ≠ 'x' ∧ c ≠ 'X' := by
  intro c hc
  cases hf : d.fracPart with
  | none =>
    simp only [fracText, hf, List.nil_append] at hc
    have := expTail_head d rest hd hr c hc
    exact ⟨this.1, (this.2 hf).2⟩
  | some f =>
    simp [fracText, hf] at hc
    subst hc
    exact ⟨by decide, by decide, by decide⟩

theorem parseDecimal_literal (d : DecLiteral) (rest : List Char) (hd : d.wf)
    (hr : d.endsAt rest) :
    parseDecimal (d.intPart ++ (d.fracText ++ (d.expText ++ rest))) =
      some ((natOfDigits 10 (d.intPart ++ d.fracDigits) : ℚ) / (10 : ℚ) ^ d.fracDigits.length
        * (10 : ℚ) ^ d.expValue) := by
  have hspan := span_append isdigit d.intPart _ hd.1
    (fun c hc => (fracTail_head d rest hd hr c hc).1)
  have hne : ¬ (d.intPart = [] ∧ d.fracDigits = []) := by
    rintro ⟨h1, h2⟩
    rcases hd.2.2.1 with h | h
    · exact h h1
    · exact h h2
  simp only [parseDecimal, hspan.1, hspan.2, takeFrac_fracText d rest hd hr,
    parseExp_expText d rest hd hr, if_neg hne]

/-- The mantissa of a well-formed literal starts with a digit or with the point. -/
theorem mantissa_head (d : DecLiteral) (rest : List Char) (hd : d.wf) :
    ∃ c t, d.intPart ++ (d.fracText ++ (d.expText ++ rest)) = c :: t ∧
      (isdigit c = true ∨ c = '.') := by
  cases hi : d.intPart with
  | cons c t => exact ⟨c, _, List.cons_append _ _ _, Or.inl (hd.1 c (by simp [hi]))⟩
  | nil =>
    cases hf : d.fracPart with
    | none =>
      rcases hd.2.2.1 with h | h
      · exact absurd hi h
      · exact absurd (by simp [fracDigits, hf]) h
    | some f =>
      refine ⟨'.', f ++ (d.expText ++ rest), ?_, Or.inr rfl⟩
      simp [fracText, hf]

theorem parseHex_literal (d : DecLiteral) (rest : List Char) (hd : d.wf)
    (hr : d.endsAt rest) :
    parseHex (d.intPart ++ (d.fracText ++ (d.expText ++ rest))) = none := by
  unfold parseHex
  split
  · next x s heq =>
    have hx : x ≠ 'x' ∧ x ≠ 'X' := by
      cases hi : d.intPart with
      | nil =>
        rw [hi, List.nil_append] at heq
        cases hf : d.fracPart with
        | none =>
          rcases hd.2.2.1 with h | h
          · exact absurd hi h
          · exact absurd (by simp [fracDigits, hf]) h
        | some f => simp [fracText, hf] at heq
      | cons c t =>
        rw [hi] at heq
        cases t with
        | nil =>
          simp only [List.cons_append, List.nil_append, List.cons.injEq] at heq
          have := fracTail_head d rest hd hr x (by rw [heq.2]; simp)
          exact this.2
        | cons c2 t2 =>
          simp only [List.cons_append, List.cons.injEq] at heq
          have := isdigit_not_special c2 (hd.1 c2 (by simp [hi]))
          rw [heq.2.1] at this
          exact ⟨this.2.2.2.2.2.2.2.1, this.2.2.2.2.2.2.2.2.1⟩
    simp [hx.1, hx.2]
  · rfl

theorem strtod_subject_literal (d : DecLiteral) (rest : List Char) (hd : d.wf)
    (hr : d.endsAt rest) :
    strtod_subject (d.intPart ++ (d.fracText ++ (d.expText ++ rest))) =
      some (Subject.finite ((natOfDigits 10 (d.intPart ++ d.fracDigits) : ℚ)
        / (10 : ℚ) ^ d.fracDigits.length * (10 : ℚ) ^ d.expValue)) := by
  obtain ⟨c, t, hct, hc⟩ := mantissa_head d rest hd
  have hlow : c.toLower ≠ 'i' ∧ c.toLower ≠ 'n' := by
    rcases hc with hc | hc
    · have h := isdigit_not_special c hc
      rw [h.2.2.2.2.2.2.2.2.2.2]
      have h1 : 48 ≤ c.toNat ∧ c.toNat ≤ 57 := by
        simp only [isdigit, Bool.and_eq_true, decide_eq_true_eq] at hc
        exact ⟨hc.1, hc.2⟩
      constructor <;> (rintro rfl; revert h1; decide)
    · subst hc; exact ⟨by decide, by decide⟩
  have hinf : ("inf".toList.isPrefixOf (((c :: t).take 3).map Char.toLower)) = false := by
    have : "inf".toList = ['i', 'n', 'f'] := rfl
    simp [this, List.isPrefixOf, Ne.symm hlow.1]
  have hnan : ("nan".toList.isPrefixOf (((c :: t).take 3).map Char.toLower)) = false := by
    have : "nan".toList = ['n', 'a', 'n'] := rfl
    simp [this, List.isPrefixOf, Ne.symm hlow.2]
  unfold strtod_subject
  rw [parseHex_literal d rest hd hr, parseDecimal_literal d rest hd hr, hct, hinf, hnan]
  rfl

/-- The model of `atof` on a literal followed by `rest`: the `double` nearest to its value. -/
theorem atof_literal (d : DecLiteral) (rest : List Char) (hd : d.wf) (hr : d.endsAt rest) :
    atof (d.text ++ rest) = roundDouble d.value := by
  obtain ⟨c, t, hct, hc⟩ := mantissa_head d rest hd
  have hcs : c ≠ '-' ∧ c ≠ '+' ∧ isspace c = false := by
    rcases hc with hc | hc
    · have h := isdigit_not_special c hc
      exact ⟨h.2.2.2.1, h.2.2.1, h.2.2.2.2.2.2.2.2.2.1⟩
    · subst hc; exact ⟨by decide, by decide, by decide⟩
  have htext : d.text ++ rest
      = signText d.sign ++ (d.intPart ++ (d.fracText ++ (d.expText ++ rest))) := by
    simp [text, List.append_assoc]
  have hin : atof_input (d.text ++ rest) = d.text ++ rest := by
    rw [htext, hct]
    unfold atof_input
    cases hs : d.sign with
    | none => simp [signText, List.dropWhile, hcs.2.2]
    | some b => cases b <;> simp [signText, List.dropWhile, isspace]
  have hsign : takeSign (d.text ++ rest)
      = (signNeg d.sign, d.intPart ++ (d.fracText ++ (d.expText ++ rest))) := by
    rw [htext]
    apply takeSign_signText
    intro x hx
    rw [hct] at hx
    simp at hx
    subst hx
    exact ⟨hcs.1, hcs.2.1⟩
  unfold atof
  simp only [hin, hsign, strtod_subject_literal d rest hd hr, value]

end DecLiteral

theorem skip_spaces_quotes_run (run t : List Char) (hrun : ∀ c ∈ run, c = ' ' ∨ c = '"')
    (ht : ∀ c ∈ t.head?, c ≠ ' ' ∧ c ≠ '"') :
    skip_spaces_quotes (run ++ t) = t := by
  induction run with
  | nil =>
    cases t with
    | nil => rfl
    | cons c cs =>
      have := ht c (by simp)
      simp [skip_spaces_quotes, this.1, this.2]
  | cons x xs ih =>
    have hx := hrun x (by simp)
    have := ih (fun c hc => hrun c (by simp [hc]))
    simp [skip_spaces_quotes, hx, this]

/-- C4: when the first occurrence of `temp_c` is followed by a `:` and the
text after the first such `:` is a run of spaces and double quotes followed by
a decimal numeric literal, `extract_temperature` returns the value of that
literal as a `float`: the literal's exact value converted to `double` by `atof`
and then to `float` by the return, hence the exact value itself whenever that
is a `float` (as for `23.5` and `21.0`), and in any case a value within
`2 ^ (-23)` of it in relative terms (for a value that is zero or of magnitude
between `2 ^ (-100)` and `2 ^ 100`). -/
theorem extract_temperature_literal (pre mid run rest : List Char) (d : DecLiteral)
    (hfirst : ∀ pre' post',
      pre ++ marker ++ (mid ++ ':' :: (run ++ (d.text ++ rest))) = pre' ++ marker ++ post' →
        pre.length ≤ pre'.length)
    (hmid : ':' ∉ mid)
    (hrun : ∀ c ∈ run, c = ' ' ∨ c = '"')
    (hd : d.wf) (hr : d.endsAt rest) :
    extract_temperature (pre ++ marker ++ (mid ++ ':' :: (run ++ (d.text ++ rest))))
        = double_to_float (roundDouble d.value)
    ∧ (roundDouble d.value = fin d.value → roundFloat d.value = fin d.value →
        extract_temperature (pre ++ marker ++ (mid ++ ':' :: (run ++ (d.text ++ rest))))
          = fin d.value)
    ∧ (d.value = 0 ∨ ((1 : ℚ) / 2 ^ 100 ≤ |d.value| ∧ |d.value| ≤ 2 ^ 100) →
        ∃ r, extract_temperature (pre ++ marker ++ (mid ++ ':' :: (run ++ (d.text ++ rest))))
            = fin r
          ∧ |r - d.value| ≤ |d.value| / 2 ^ 23) := by
  have hs := strstr_first marker pre _ hfirst
  have hm : ':' ∉ marker ++ mid := by
    simp only [List.mem_append, not_or]
    exact ⟨by decide, hmid⟩
  have hc := strchr_first (marker ++ mid) (run ++ (d.text ++ rest)) ':' hm
  have hhead : ∀ c ∈ (d.text ++ rest).head?, c ≠ ' ' ∧ c ≠ '"' := by
    obtain ⟨c, t, hct, hcd⟩ := DecLiteral.mantissa_head d rest hd
    have hcq : c ≠ ' ' ∧ c ≠ '"' := by
      rcases hcd with hcd | hcd
      · have h := isdigit_not_special c hcd
        exact ⟨h.1, h.2.1⟩
      · subst hcd; exact ⟨by decide, by decide⟩
    have htext : d.text ++ rest
        = signText d.sign ++ (d.intPart ++ (d.fracText ++ (d.expText ++ rest))) := by
      simp [DecLiteral.text, List.append_assoc]
    intro x hx
    rw [htext, hct] at hx
    cases hsg : d.sign with
    | none =>
      simp [hsg, signText] at hx
      subst hx; exact hcq
    | some b =>
      cases b <;> simp [hsg, signText] at hx <;> subst hx <;> exact ⟨by decide, by decide⟩
  have key : extract_temperature (pre ++ marker ++ (mid ++ ':' :: (run ++ (d.text ++ rest))))
      = double_to_float (roundDouble d.value) := by
    unfold extract_temperature
    rw [hs]
    simp only
    rw [← List.append_assoc, hc]
    simp only [List.tail_cons]
    rw [skip_spaces_quotes_run run _ hrun hhead, DecLiteral.atof_literal d rest hd hr]
  refine ⟨key, fun h1 h2 => ?_, fun hv => ?_⟩
  · rw [key, h1, double_to_float, h2]
  · rw [key]
    exact double_to_float_roundDouble_close d.value hv


theorem extract_temperature_literal_witness :
    extract_temperature "\x7b\"temp_c\": 21.0\x7d".toList = fin 21 ∧
    extract_temperature "\"temp_c\":23.5".toList = fin 23.5 := by
  have h1 := (extract_temperature_literal ['\x7b', '"'] ['"'] [' '] ['\x7d']
      ⟨none, ['2', '1'], some ['0'], none⟩
      (first_of_strstr marker _ _ (by decide)) (by decide) (by decide)
      (by decide) (by decide)).2.1 (by decide!) (by decide!)
  have h2 := (extract_temperature_literal ['"'] ['"'] [] []
      ⟨none, ['2', '3'], some ['5'], none⟩
      (first_of_strstr marker _ _ (by decide)) (by decide) (by decide)
      (by decide) (by decide)).2.1 (by decide!) (by decide!)
  have v1 : (⟨none, ['2', '1'], some ['0'], none⟩ : DecLiteral).value = 21 := by decide!
  have v2 : (⟨none, ['2', '3'], some ['5'], none⟩ : DecLiteral).value = 23.5 := by decide!
  rw [v1] at h1
  rw [v2] at h2
  exact ⟨h1, h2⟩

/-! ## Lines whose number cannot be parsed, and lines without a value -/

theorem atof_no_number (t : List Char) (h : ¬ begins_with_number t) : atof t = fin 0 := by
  have h0 : strtod_subject (takeSign (atof_input t)).2 = none := by
    simpa [begins_with_number] using h
  simp [atof, h0]

/-- The text after the first `:` that follows the first `temp_c` of a line. -/
theorem extract_temperature_after_colon (pre mid after : List Char)
    (hfirst : ∀ pre' post', pre ++ marker ++ (mid ++ ':' :: after) = pre' ++ marker ++ post' →
      pre.length ≤ pre'.length)
    (hmid : ':' ∉ mid) :
    extract_temperature (pre ++ marker ++ (mid ++ ':' :: after))
      = double_to_float (atof (skip_spaces_quotes after)) := by
  have hs := strstr_first marker pre _ hfirst
  have hm : ':' ∉ marker ++ mid := by
    simp only [List.mem_append, not_or]
    exact ⟨by decide, hmid⟩
  have hc := strchr_first (marker ++ mid) after ':' hm
  unfold extract_temperature
  rw [hs]
  simp only
  rw [← List.append_assoc, hc]
  simp only [List.tail_cons]

/-- C2, as the code has it: when the first `temp_c` of a line is followed by a
`:` and the text after that `:`, once spaces and double quotes are skipped,
does not begin with a number `atof` can convert, `extract_temperature` returns
`0.0` (the result of `atof` when no conversion is performed); the read loop
accepts it as a temperature (`0.0 > -900`), so processing the line records the
observation `0.0`, makes it the latest temperature and sets the status. -/
theorem unparsable_number_reads_as_zero (raw pre mid after : List Char)
    (hline : raw.takeWhile (fun c => c ≠ '\n') = pre ++ marker ++ (mid ++ ':' :: after))
    (hfirst : ∀ pre' post', pre ++ marker ++ (mid ++ ':' :: after) = pre' ++ marker ++ post' →
      pre.length ≤ pre'.length)
    (hmid : ':' ∉ mid)
    (hnum : ¬ begins_with_number (skip_spaces_quotes after))
    (s : State) (hs : s.wf) (now_str : String) :
    extract_temperature (pre ++ marker ++ (mid ++ ':' :: after)) = fin 0
    ∧ is_valid (fin 0) = true
    ∧ process_line s raw now_str
        = { add_temperature s (fin 0) now_str with status_msg := connected_status (fin 0) }
    ∧ (process_line s raw now_str).history
        = (s.history ++ [(⟨fin 0, now_str⟩ : TempReading)]).drop
            (s.history.length + 1 - MAX_READINGS)
    ∧ (process_line s raw now_str).current_temp = fin 0 := by
  have hx : extract_temperature (pre ++ marker ++ (mid ++ ':' :: after)) = fin 0 := by
    rw [extract_temperature_after_colon pre mid after hfirst hmid, atof_no_number _ hnum]
    rfl
  have hv : is_valid (fin 0) = true := by decide!
  have hp : process_line s raw now_str
      = { add_temperature s (fin 0) now_str with status_msg := connected_status (fin 0) } := by
    simp only [process_line, hline, hx, hv, if_true, connected_status]
  refine ⟨hx, hv, hp, ?_, ?_⟩
  · rw [hp]
    exact (add_temperature_history s hs (fin 0) now_str).2
  · rw [hp]
    rfl

theorem unparsable_number_reads_as_zero_witness :
    extract_temperature "\"temp_c\": \"notanumber\"".toList = fin 0
    ∧ is_valid (fin 0) = true
    ∧ process_line State.init "\"temp_c\": \"notanumber\"\n".toList "12:00:00"
        = { add_temperature State.init (fin 0) "12:00:00" with
            status_msg := connected_status (fin 0) }
    ∧ (process_line State.init "\"temp_c\": \"notanumber\"\n".toList "12:00:00").history
        = (State.init.history ++ [(⟨fin 0, "12:00:00"⟩ : TempReading)]).drop
            (State.init.history.length + 1 - MAX_READINGS)
    ∧ (process_line State.init "\"temp_c\": \"notanumber\"\n".toList "12:00:00").current_temp
        = fin 0 :=
  unparsable_number_reads_as_zero "\"temp_c\": \"notanumber\"\n".toList ['"'] ['"']
    " \"notanumber\"".toList (by decide) (first_of_strstr marker _ _ (by decide)) (by decide)
    (by decide) State.init init_wf "12:00:00"

/-- C2, as stated, fails: the line `"temp_c": "notanumber"` has the marker and
a `:`, the text after the `:` does not begin with a number once spaces and
quotes are skipped, and yet the extractor yields `0.0`, which passes the test
`temp > -900`, and processing the line records one observation. -/
theorem notanumber_is_recorded :
    strstr "\"temp_c\": \"notanumber\"".toList marker
        = some "temp_c\": \"notanumber\"".toList
    ∧ strchr "temp_c\": \"notanumber\"".toList ':' = some ": \"notanumber\"".toList
    ∧ skip_spaces_quotes " \"notanumber\"".toList = "notanumber\"".toList
    ∧ ¬ begins_with_number "notanumber\"".toList
    ∧ extract_temperature "\"temp_c\": \"notanumber\"".toList = fin 0
    ∧ is_valid (extract_temperature "\"temp_c\": \"notanumber\"".toList) = true
    ∧ (process_line State.init "\"temp_c\": \"notanumber\"\n".toList "12:00:00").history
        = [⟨fin 0, "12:00:00"⟩]
    ∧ (process_line State.init "\"temp_c\": \"notanumber\"\n".toList "12:00:00").reading_count
        = 1 := by
  refine ⟨by decide, by decide, by decide, by decide, by decide!, by decide!, by decide!,
    by decide!⟩

/-- C9: a read line from which the extractor yields no value (a result that
fails the test `temp > -900`) leaves the history contents, the history length,
the latest temperature and the status message unchanged, both in the body of
the read loop and in the step of the driver that runs it. -/
theorem line_without_value_changes_nothing (d : Driver) (raw : List Char) (now_str : String)
    (now : ℤ)
    (h : is_valid (extract_temperature (raw.takeWhile (fun c => c ≠ '\n'))) = false) :
    process_line d.st raw now_str = d.st
    ∧ (step d (Event.line raw now_str now)).st.history = d.st.history
    ∧ (step d (Event.line raw now_str now)).st.reading_count = d.st.reading_count
    ∧ (step d (Event.line raw now_str now)).st.current_temp = d.st.current_temp
    ∧ (step d (Event.line raw now_str now)).st.status_msg = d.st.status_msg := by
  have hp : process_line d.st raw now_str = d.st := by
    simp only [process_line, h, Bool.false_eq_true, if_false]
  have hst : (step d (Event.line raw now_str now)).st = d.st := by
    simp only [step, hp]
    split <;> rfl
  rw [hst]
  exact ⟨hp, rfl, rfl, rfl, rfl⟩

theorem line_without_value_changes_nothing_witness :
    is_valid (extract_temperature ("no marker here\n".toList.takeWhile (fun c => c ≠ '\n')))
      = false
    ∧ process_line Driver.init.st "no marker here\n".toList "12:00:00" = Driver.init.st :=
  ⟨by decide!,
   (line_without_value_changes_nothing Driver.init "no marker here\n".toList "12:00:00" 5
      (by decide!)).1⟩

/-! ## Colour bands -/

theorem colors_distinct :
    BLUE ≠ GREEN ∧ BLUE ≠ YELLOW ∧ BLUE ≠ RED ∧ GREEN ≠ YELLOW ∧ GREEN ≠ RED ∧ YELLOW ≠ RED := by
  decide

theorem colored_of_no_args (fmt : String) : (⟨fmt, []⟩ : Printf).colored := by
  intro i v h
  simp at h

theorem history_row_colored (r : TempReading) : (history_row r).colored := by
  intro i v h
  rcases i with _ | _ | _ | _ | i <;> simp [history_row] at h
  subst h
  exact ⟨1, rfl, rfl⟩

theorem gauge_cell_colored (t : CFloat) (pos : ℤ) (i : ℕ) : (gauge_cell t pos i).colored := by
  unfold gauge_cell
  split
  · intro k v h
    rcases k with _ | _ | k <;> simp [gauge_marker] at h
  · split <;> exact colored_of_no_args _

theorem current_block_colored (s : State) (cur : List Printf) (h : current_block s = some cur) :
    ∀ p ∈ cur, p.colored := by
  unfold current_block at h
  split at h
  · obtain ⟨pos, _, rfl⟩ := Option.map_eq_some'.mp h
    intro p hp
    simp only [value_block, gauge_cells, List.mem_append, List.mem_cons, List.mem_map,
      List.mem_singleton, List.not_mem_nil, or_false] at hp
    rcases hp with hp | rfl
    swap
    · exact colored_of_no_args _
    rcases hp with h1 | ⟨i, _, rfl⟩
    · rcases h1 with rfl | rfl | rfl | rfl | rfl
      · exact colored_of_no_args _
      · intro k v hk
        rcases k with _ | _ | k <;> simp at hk
        subst hk
        exact ⟨0, rfl, rfl⟩
      · exact colored_of_no_args _
      · exact colored_of_no_args _
      · exact colored_of_no_args _
    · exact gauge_cell_colored _ _ _
  · cases h
    intro p hp
    simp only [no_data_block, List.mem_cons, List.mem_singleton, List.not_mem_nil,
      or_false] at hp
    rcases hp with rfl | rfl | rfl <;> exact colored_of_no_args _

theorem statistics_block_colored (s : State) : ∀ p ∈ statistics_block s, p.colored := by
  intro p hp
  unfold statistics_block at hp
  split at hp
  · simp only [List.mem_cons, List.mem_singleton, List.not_mem_nil, or_false] at hp
    rcases hp with rfl | rfl
    · intro k v hk
      rcases k with _ | k <;> simp at hk
    · intro k v hk
      rcases k with _ | _ | _ | _ | _ | _ | _ | _ | _ | k <;> simp at hk
      · subst hk; exact ⟨0, rfl, rfl⟩
      · subst hk; exact ⟨3, rfl, rfl⟩
      · subst hk; exact ⟨6, rfl, rfl⟩
  · simp at hp

theorem fixed_blocks_colored (s : State) :
    ∀ p ∈ header_block ++ status_block s ++ history_block s ++ footer_block, p.colored := by
  intro p hp
  simp only [header_block, status_block, history_block, history_rows, footer_block,
    List.mem_append, List.mem_cons, List.mem_map, List.mem_singleton, List.not_mem_nil,
    or_false] at hp
  rcases hp with ((h1 | rfl) | h2) | h3
  · rcases h1 with rfl | rfl | rfl | rfl | rfl | rfl <;> exact colored_of_no_args _
  · intro k v hk
    rcases k with _ | _ | _ | k <;> simp at hk
  · rcases h2 with ((h4 | ⟨i, _, rfl⟩) | h5) | rfl
    · rcases h4 with rfl | rfl | rfl | rfl <;> exact colored_of_no_args _
    · exact history_row_colored _
    · split at h5
      · simp only [List.mem_singleton] at h5
        subst h5
        exact colored_of_no_args _
      · simp at h5
    · exact colored_of_no_args _
  · rcases h3 with rfl | rfl
    · intro k v hk
      rcases k with _ | k <;> simp at hk
    · exact colored_of_no_args _

theorem fmt_absurd {fmt : String} {args : List Arg} {P : Prop}
    (h : (⟨fmt, args⟩ : Printf).fmt = "%s|%s") (hne : fmt ≠ "%s|%s") : P :=
  absurd h hne

theorem marker_format_only (s : State) (f : List Printf) (h : draw_screen s = some f) :
    ∀ p ∈ f, p.fmt = "%s|%s" → p = gauge_marker s.current_temp := by
  obtain ⟨cur, hcur, rfl⟩ := Option.map_eq_some'.mp h
  intro p hp hfmt
  simp only [List.mem_append] at hp
  have hfixed : p ∈ header_block ++ status_block s ++ history_block s ++ footer_block →
      p = gauge_marker s.current_temp := by
    intro hp
    simp only [header_block, status_block, history_block, history_rows, footer_block,
      List.mem_append, List.mem_cons, List.mem_map, List.mem_singleton, List.not_mem_nil,
      or_false] at hp
    rcases hp with ((h1 | rfl) | h2) | h3
    · rcases h1 with rfl | rfl | rfl | rfl | rfl | rfl <;> exact fmt_absurd hfmt (by decide)
    · exact fmt_absurd hfmt (by decide)
    · rcases h2 with ((h4 | ⟨i, _, rfl⟩) | h5) | rfl
      · rcases h4 with rfl | rfl | rfl | rfl <;> exact fmt_absurd hfmt (by decide)
      · exact fmt_absurd hfmt (by decide)
      · split at h5
        · simp only [List.mem_singleton] at h5
          subst h5
          exact fmt_absurd hfmt (by decide)
        · simp at h5
      · exact fmt_absurd hfmt (by decide)
    · rcases h3 with rfl | rfl <;> exact fmt_absurd hfmt (by decide)
  rcases hp with ((((hp | hp) | hp) | hp) | hp) | hp
  · exact hfixed (by simp [hp])
  · unfold current_block at hcur
    split at hcur
    · obtain ⟨pos, _, rfl⟩ := Option.map_eq_some'.mp hcur
      simp only [value_block, gauge_cells, List.mem_append, List.mem_cons, List.mem_map,
        List.mem_singleton, List.not_mem_nil, or_false] at hp
      rcases hp with hp | rfl
      swap
      · exact fmt_absurd hfmt (by decide)
      rcases hp with h1 | ⟨i, _, rfl⟩
      · rcases h1 with rfl | rfl | rfl | rfl | rfl <;> exact fmt_absurd hfmt (by decide)
      · unfold gauge_cell at hfmt ⊢
        split
        · rfl
        · rename_i hne
          rw [if_neg hne] at hfmt
          split at hfmt <;> exact fmt_absurd hfmt (by decide)
    · cases hcur
      simp only [no_data_block, List.mem_cons, List.mem_singleton, List.not_mem_nil,
        or_false] at hp
      rcases hp with rfl | rfl | rfl <;> exact fmt_absurd hfmt (by decide)
  · exact hfixed (by simp [hp])
  · unfold statistics_block at hp
    split at hp
    · simp only [List.mem_cons, List.mem_singleton, List.not_mem_nil, or_false] at hp
      rcases hp with rfl | rfl <;> exact fmt_absurd hfmt (by decide)
    · simp at hp
  · exact hfixed (by simp [hp])
  · exact hfixed (by simp [hp])

theorem temp_color_blue (t : CFloat) : temp_color t = BLUE ↔ CFloat.lt t (fin 20) = true := by
  unfold temp_color
  by_cases h1 : CFloat.lt t (fin 20) = true
  · simp [h1]
  · by_cases h2 : CFloat.lt t (fin 25) = true
    · simp [h1, h2, colors_distinct.1.symm]
    · by_cases h3 : CFloat.lt t (fin 30) = true
      · simp [h1, h2, h3, colors_distinct.2.1.symm]
      · simp [h1, h2, h3, colors_distinct.2.2.1.symm]

theorem temp_color_green (t : CFloat) :
    temp_color t = GREEN ↔ CFloat.le (fin 20) t = true ∧ CFloat.lt t (fin 25) = true := by
  unfold temp_color
  cases t with
  | nan => simp [CFloat.lt, CFloat.le, colors_distinct.2.2.2.2.1.symm]
  | ninf => simp [CFloat.lt, CFloat.le, colors_distinct.1]
  | pinf => simp [CFloat.lt, CFloat.le, colors_distinct.2.2.2.2.1.symm]
  | fin q =>
    simp only [CFloat.lt, CFloat.le, decide_eq_true_eq]
    by_cases h1 : q < 20
    · simp [h1, colors_distinct.1, not_le.mpr h1]
    · by_cases h2 : q < 25
      · simp [h1, h2, not_lt.mp h1]
      · by_cases h3 : q < 30
        · simp [h1, h2, h3, colors_distinct.2.2.2.1.symm]
        · simp [h1, h2, h3, colors_distinct.2.2.2.2.1.symm]

theorem temp_color_yellow (t : CFloat) :
    temp_color t = YELLOW ↔ CFloat.le (fin 25) t = true ∧ CFloat.lt t (fin 30) = true := by
  unfold temp_color
  cases t with
  | nan => simp [CFloat.lt, CFloat.le, colors_distinct.2.2.2.2.2.symm]
  | ninf => simp [CFloat.lt, CFloat.le, colors_distinct.2.1]
  | pinf => simp [CFloat.lt, CFloat.le, colors_distinct.2.2.2.2.2.symm]
  | fin q =>
    simp only [CFloat.lt, CFloat.le, decide_eq_true_eq]
    by_cases h1 : q < 20
    · have : ¬ (25 : ℚ) ≤ q := by linarith
      simp [h1, colors_distinct.2.1, this]
    · by_cases h2 : q < 25
      · simp [h1, h2, colors_distinct.2.2.2.1, not_le.mpr h2]
      · by_cases h3 : q < 30
        · simp [h1, h2, h3, not_lt.mp h2]
        · simp [h1, h2, h3, colors_distinct.2.2.2.2.2.symm]

theorem temp_color_red (t : CFloat) :
    temp_color t = RED ↔ CFloat.le (fin 30) t = true ∨ t = nan := by
  unfold temp_color
  cases t with
  | nan => simp [CFloat.lt, CFloat.le]
  | ninf => simp [CFloat.lt, CFloat.le, colors_distinct.2.2.1]
  | pinf => simp [CFloat.lt, CFloat.le]
  | fin q =>
    simp only [CFloat.lt, CFloat.le, decide_eq_true_eq]
    by_cases h1 : q < 20
    · have : ¬ (30 : ℚ) ≤ q := by linarith
      simp [h1, colors_distinct.2.2.1, this]
    · by_cases h2 : q < 25
      · have : ¬ (30 : ℚ) ≤ q := by linarith
        simp [h1, h2, colors_distinct.2.2.2.2.1, this]
      · by_cases h3 : q < 30
        · simp [h1, h2, h3, colors_distinct.2.2.2.2.2, not_le.mpr h3]
        · simp [h1, h2, h3, not_lt.mp h3]

/-! ## The coloured sites of a frame -/

theorem range_map_getD (l : List TempReading) (n : ℕ) (hn : n ≤ l.length) :
    (List.range n).map (fun i => l.getD i default) = l.take n := by
  induction n with
  | zero => simp
  | succ n ih =>
    have hlt : n < l.length := hn
    rw [List.range_succ, List.map_append, ih (Nat.le_of_lt hlt), List.take_succ]
    simp [List.getD_eq_getElem?_getD, List.getElem?_eq_getElem hlt]

/-- The rows of the history table are the rows of the history, newest first. -/
theorem history_rows_eq (s : State) (h : s.wf) :
    history_rows s = s.history.reverse.map history_row := by
  unfold history_rows State.history
  rw [← range_map_getD s.readings s.reading_count (by rw [h.1]; exact h.2), List.map_reverse,
    List.map_reverse, List.map_map]
  rfl

theorem range_filter_eq (n : ℕ) (pos : ℤ) :
    (List.range n).filter (fun i : ℕ => decide ((i : ℤ) = pos))
      = if 0 ≤ pos ∧ pos < n then [pos.toNat] else [] := by
  induction n with
  | zero =>
    have : ¬ (0 ≤ pos ∧ pos < ((0 : ℕ) : ℤ)) := by rintro ⟨h1, h2⟩; simp at h2; omega
    simp [this]
  | succ n ih =>
    rw [List.range_succ, List.filter_append, ih]
    by_cases hn : (n : ℤ) = pos
    · have h1 : ¬ (0 ≤ pos ∧ pos < (n : ℤ)) := by omega
      have h2 : 0 ≤ pos ∧ pos < ((n + 1 : ℕ) : ℤ) := by push_cast; omega
      have h3 : pos.toNat = n := by omega
      rw [if_neg h1, if_pos h2]
      simp [hn, h3]
    · by_cases h1 : 0 ≤ pos ∧ pos < (n : ℤ)
      · have h2 : 0 ≤ pos ∧ pos < ((n + 1 : ℕ) : ℤ) := by push_cast; omega
        rw [if_pos h1, if_pos h2]
        simp [hn]
      · have h2 : ¬ (0 ≤ pos ∧ pos < ((n + 1 : ℕ) : ℤ)) := by push_cast; omega
        rw [if_neg h1, if_neg h2]
        simp [hn]

/-- The marker cells of the gauge row: one, at cell `pos`, when `pos` is one
of the cells 0 to 29, and none otherwise. -/
theorem gauge_cells_markers (t : CFloat) (pos : ℤ) :
    (gauge_cells t pos).filter (fun p => decide (p.fmt = "%s|%s"))
      = if 0 ≤ pos ∧ pos < 30 then [⟨"%s|%s", [Arg.str (temp_color t), Arg.str RESET]⟩]
        else [] := by
  have hcomp : ((fun p : Printf => decide (p.fmt = "%s|%s")) ∘ gauge_cell t pos)
      = fun i : ℕ => decide ((i : ℤ) = pos) := by
    funext i
    simp only [Function.comp, gauge_cell]
    by_cases h : (i : ℤ) = pos
    · simp [h, gauge_marker]
    · by_cases h5 : i % 5 = 0 <;> simp [h, h5]
  unfold gauge_cells
  rw [List.filter_map, hcomp, range_filter_eq]
  by_cases h : 0 ≤ pos ∧ pos < ((30 : ℕ) : ℤ)
  · have h' : 0 ≤ pos ∧ pos < 30 := by simpa using h
    have hc : ((pos.toNat : ℕ) : ℤ) = pos := Int.toNat_of_nonneg h.1
    simp [h, h', gauge_cell, hc, gauge_marker]
  · have h' : ¬ (0 ≤ pos ∧ pos < 30) := by simpa using h
    simp [h, h']

/-- The formats of the gauge cells. -/
theorem gauge_cells_fmt (t : CFloat) (pos : ℤ) :
    ∀ p ∈ gauge_cells t pos, p.fmt = "%s|%s" ∨ p.fmt = ":" ∨ p.fmt = "-" := by
  intro p hp
  simp only [gauge_cells, List.mem_map] at hp
  obtain ⟨i, _, rfl⟩ := hp
  unfold gauge_cell
  split
  · exact Or.inl rfl
  · split
    · exact Or.inr (Or.inl rfl)
    · exact Or.inr (Or.inr rfl)

theorem gauge_cells_filter_other (t : CFloat) (pos : ℤ) (F : String)
    (h1 : F ≠ "%s|%s") (h2 : F ≠ ":") (h3 : F ≠ "-") :
    (gauge_cells t pos).filter (fun p => decide (p.fmt = F)) = [] := by
  rw [List.filter_eq_nil_iff]
  intro p hp hF
  have hF' : p.fmt = F := by simpa using hF
  rcases gauge_cells_fmt t pos p hp with h | h | h
  · exact h1 (hF'.symm.trans h)
  · exact h2 (hF'.symm.trans h)
  · exact h3 (hF'.symm.trans h)

theorem history_rows_filter_other (s : State) (F : String)
    (hF : F ≠ "  %s │ %s%6.1f°C%s\n") :
    (history_rows s).filter (fun p => decide (p.fmt = F)) = [] := by
  rw [List.filter_eq_nil_iff]
  intro p hp hpF
  have hF' : p.fmt = F := by simpa using hpF
  simp only [history_rows, List.mem_map] at hp
  obtain ⟨i, _, rfl⟩ := hp
  exact hF (hF'.symm.trans rfl)

theorem history_rows_filter_self (s : State) :
    (history_rows s).filter (fun p => decide (p.fmt = "  %s │ %s%6.1f°C%s\n"))
      = history_rows s := by
  rw [List.filter_eq_self]
  intro p hp
  simp only [history_rows, List.mem_map] at hp
  obtain ⟨i, _, rfl⟩ := hp
  simp [history_row]

theorem gauge_pos_range (t : CFloat) (pos : ℤ) (h : gauge_pos t = some pos) :
    0 ≤ pos ∧ pos ≤ 30 := by
  unfold gauge_pos at h
  obtain ⟨c, _, hc⟩ := Option.map_eq_some'.mp h
  simp only at hc
  subst hc
  constructor <;> split_ifs <;> omega

theorem current_block_cases (s : State) (cur : List Printf) (h : current_block s = some cur) :
    (is_valid s.current_temp = true
      ∧ ∃ pos, gauge_pos s.current_temp = some pos ∧ cur = value_block s.current_temp pos)
    ∨ (is_valid s.current_temp = false ∧ cur = no_data_block) := by
  unfold current_block at h
  split at h
  · next hv =>
    obtain ⟨pos, hpos, rfl⟩ := Option.map_eq_some'.mp h
    exact Or.inl ⟨hv, pos, hpos, rfl⟩
  · next hv =>
    cases h
    exact Or.inr ⟨by simpa using hv, rfl⟩

theorem frame_blocks (s : State) (f : List Printf) (h : draw_screen s = some f) :
    ∃ cur, current_block s = some cur
      ∧ f = header_block ++ cur ++ status_block s ++ statistics_block s ++ history_block s
          ++ footer_block := by
  obtain ⟨cur, hcur, rfl⟩ := Option.map_eq_some'.mp h
  exact ⟨cur, hcur, rfl⟩

/-- The `printf` calls of a frame that print the current value. -/
theorem frame_current_value (s : State) (f : List Printf) (h : draw_screen s = some f) :
    f.filter (fun p => decide (p.fmt = "%s          %6.1f°C\n"))
      = if is_valid s.current_temp = true then
          [⟨"%s          %6.1f°C\n", [Arg.str (temp_color s.current_temp),
            Arg.flt s.current_temp]⟩]
        else [] := by
  obtain ⟨cur, hcur, rfl⟩ := frame_blocks s f h
  have hrows := history_rows_filter_other s "%s          %6.1f°C\n" (by decide)
  have hstats : (statistics_block s).filter
      (fun p => decide (p.fmt = "%s          %6.1f°C\n")) = [] := by
    unfold statistics_block
    split <;> simp
  have hhist : (history_block s).filter
      (fun p => decide (p.fmt = "%s          %6.1f°C\n")) = [] := by
    unfold history_block
    simp only [List.filter_append, hrows]
    split <;> simp [RULE_SINGLE]
  have hhead : header_block.filter
      (fun p => decide (p.fmt = "%s          %6.1f°C\n")) = [] := by decide
  have hfoot : footer_block.filter
      (fun p => decide (p.fmt = "%s          %6.1f°C\n")) = [] := by decide
  have hstatus : (status_block s).filter
      (fun p => decide (p.fmt = "%s          %6.1f°C\n")) = [] := by simp [status_block]
  simp only [List.filter_append, hhead, hfoot, hstatus, hstats, hhist, List.nil_append,
    List.append_nil]
  rcases current_block_cases s cur hcur with ⟨hv, pos, _, rfl⟩ | ⟨hv, rfl⟩
  · have hcells := gauge_cells_filter_other s.current_temp pos "%s          %6.1f°C\n"
      (by decide) (by decide) (by decide)
    rw [if_pos hv]
    simp [value_block, List.filter_append, hcells, BOLD, RESET]
  · rw [if_neg (by simp [hv])]
    decide

/-- The `printf` calls of a frame that print a gauge marker. -/
theorem frame_markers (s : State) (f : List Printf) (pos : ℤ) (h : draw_screen s = some f)
    (hpos : gauge_pos s.current_temp = some pos) :
    f.filter (fun p => decide (p.fmt = "%s|%s"))
      = if is_valid s.current_temp = true ∧ pos < 30 then
          [⟨"%s|%s", [Arg.str (temp_color s.current_temp), Arg.str RESET]⟩]
        else [] := by
  obtain ⟨cur, hcur, rfl⟩ := frame_blocks s f h
  have hrows := history_rows_filter_other s "%s|%s" (by decide)
  have hstats : (statistics_block s).filter (fun p => decide (p.fmt = "%s|%s")) = [] := by
    unfold statistics_block
    split <;> simp
  have hhist : (history_block s).filter (fun p => decide (p.fmt = "%s|%s")) = [] := by
    unfold history_block
    simp only [List.filter_append, hrows]
    split <;> simp [RULE_SINGLE]
  have hhead : header_block.filter (fun p => decide (p.fmt = "%s|%s")) = [] := by decide
  have hfoot : footer_block.filter (fun p => decide (p.fmt = "%s|%s")) = [] := by decide
  have hstatus : (status_block s).filter (fun p => decide (p.fmt = "%s|%s")) = [] := by
    simp [status_block]
  simp only [List.filter_append, hhead, hfoot, hstatus, hstats, hhist, List.nil_append,
    List.append_nil]
  rcases current_block_cases s cur hcur with ⟨hv, pos', hpos', rfl⟩ | ⟨hv, rfl⟩
  · have hpp : pos' = pos := Option.some.inj (hpos'.symm.trans hpos)
    subst hpp
    have hr := gauge_pos_range s.current_temp pos' hpos
    have hcells := gauge_cells_markers s.current_temp pos'
    by_cases h30 : pos' < 30
    · rw [if_pos ⟨hv, h30⟩]
      rw [if_pos ⟨hr.1, h30⟩] at hcells
      simp [value_block, List.filter_append, hcells, BOLD, RESET]
    · rw [if_neg (fun hc => h30 hc.2)]
      rw [if_neg (fun hc => h30 hc.2)] at hcells
      simp [value_block, List.filter_append, hcells, BOLD, RESET]
  · rw [if_neg (by simp [hv])]
    decide

/-- The `printf` calls of a frame that print the statistics. -/
theorem frame_statistics (s : State) (f : List Printf) (h : draw_screen s = some f) :
    f.filter (fun p => decide (p.fmt = "Min: %s%.1f°C%s  Max: %s%.1f°C%s  Avg: %s%.1f°C%s\n\n"))
      = if 0 < s.reading_count then
          [⟨"Min: %s%.1f°C%s  Max: %s%.1f°C%s  Avg: %s%.1f°C%s\n\n",
            [Arg.str (temp_color (stats_loop s).min_t), Arg.flt (stats_loop s).min_t,
             Arg.str RESET,
             Arg.str (temp_color (stats_loop s).max_t), Arg.flt (stats_loop s).max_t,
             Arg.str RESET,
             Arg.str (temp_color (stats_avg s)), Arg.flt (stats_avg s), Arg.str RESET]⟩]
        else [] := by
  obtain ⟨cur, hcur, rfl⟩ := frame_blocks s f h
  have hrows := history_rows_filter_other s
    "Min: %s%.1f°C%s  Max: %s%.1f°C%s  Avg: %s%.1f°C%s\n\n" (by decide)
  have hhist : (history_block s).filter (fun p => decide
      (p.fmt = "Min: %s%.1f°C%s  Max: %s%.1f°C%s  Avg: %s%.1f°C%s\n\n")) = [] := by
    unfold history_block
    simp only [List.filter_append, hrows]
    split <;> simp [RULE_SINGLE]
  have hhead : header_block.filter (fun p => decide
      (p.fmt = "Min: %s%.1f°C%s  Max: %s%.1f°C%s  Avg: %s%.1f°C%s\n\n")) = [] := by decide
  have hfoot : footer_block.filter (fun p => decide
      (p.fmt = "Min: %s%.1f°C%s  Max: %s%.1f°C%s  Avg: %s%.1f°C%s\n\n")) = [] := by decide
  have hstatus : (status_block s).filter (fun p => decide
      (p.fmt = "Min: %s%.1f°C%s  Max: %s%.1f°C%s  Avg: %s%.1f°C%s\n\n")) = [] := by
    simp [status_block]
  have hcur : cur.filter (fun p => decide
      (p.fmt = "Min: %s%.1f°C%s  Max: %s%.1f°C%s  Avg: %s%.1f°C%s\n\n")) = [] := by
    rcases current_block_cases s cur hcur with ⟨_, pos, _, rfl⟩ | ⟨_, rfl⟩
    · have hcells := gauge_cells_filter_other s.current_temp pos
        "Min: %s%.1f°C%s  Max: %s%.1f°C%s  Avg: %s%.1f°C%s\n\n"
        (by decide) (by decide) (by decide)
      simp [value_block, List.filter_append, hcells, BOLD, RESET]
    · decide
  simp only [List.filter_append, hhead, hfoot, hstatus, hcur, hhist, List.nil_append,
    List.append_nil]
  unfold statistics_block
  by_cases hc : 0 < s.reading_count
  · have hc' : s.reading_count > 0 := hc
    simp [hc, hc']
  · have hc' : ¬ s.reading_count > 0 := hc
    simp [hc, hc']

/-- The `printf` calls of a frame that print a row of the history table. -/
theorem frame_history_rows (s : State) (f : List Printf) (h : draw_screen s = some f)
    (hwf : s.wf) :
    f.filter (fun p => decide (p.fmt = "  %s │ %s%6.1f°C%s\n"))
      = s.history.reverse.map fun r =>
          ⟨"  %s │ %s%6.1f°C%s\n",
            [Arg.str r.time_str, Arg.str (temp_color r.temperature), Arg.flt r.temperature,
             Arg.str RESET]⟩ := by
  obtain ⟨cur, hcur, rfl⟩ := frame_blocks s f h
  have hstats : (statistics_block s).filter
      (fun p => decide (p.fmt = "  %s │ %s%6.1f°C%s\n")) = [] := by
    unfold statistics_block
    split <;> simp
  have hhist : (history_block s).filter (fun p => decide (p.fmt = "  %s │ %s%6.1f°C%s\n"))
      = history_rows s := by
    unfold history_block
    simp only [List.filter_append, history_rows_filter_self]
    split <;> simp [RULE_SINGLE]
  have hhead : header_block.filter
      (fun p => decide (p.fmt = "  %s │ %s%6.1f°C%s\n")) = [] := by decide
  have hfoot : footer_block.filter
      (fun p => decide (p.fmt = "  %s │ %s%6.1f°C%s\n")) = [] := by decide
  have hstatus : (status_block s).filter
      (fun p => decide (p.fmt = "  %s │ %s%6.1f°C%s\n")) = [] := by simp [status_block]
  have hcur : cur.filter (fun p => decide (p.fmt = "  %s │ %s%6.1f°C%s\n")) = [] := by
    rcases current_block_cases s cur hcur with ⟨_, pos, _, rfl⟩ | ⟨_, rfl⟩
    · have hcells := gauge_cells_filter_other s.current_temp pos "  %s │ %s%6.1f°C%s\n"
        (by decide) (by decide) (by decide)
      simp [value_block, List.filter_append, hcells, BOLD, RESET]
    · decide
  simp only [List.filter_append, hhead, hfoot, hstatus, hcur, hstats, hhist, List.nil_append,
    List.append_nil]
  rw [history_rows_eq s hwf]
  rfl

/-- C8: `temp_color` is a total function of the temperature with four bands:
blue exactly for the values below 20, green exactly for those in `[20, 25)`,
yellow exactly for those in `[25, 30)`, red exactly for those at or above 30
(and for NaN). Every rendering site takes its colour from it: in every frame
`draw_screen` produces, the current value is printed (once, when it passes
`current_temp > -900`) after `temp_color` of the current temperature; the
gauge marker (one, when the position is one of the cells 0 to 29) is printed
in `temp_color` of the current temperature; the statistics line (one, when
the history is not empty) prints the minimum, the maximum and the average each
after `temp_color` of that value; and the rows of the history table are, newest
first, one row for each entry of the history, its temperature printed after
`temp_color` of it. No other `printf` call of the frame has a floating-point
argument without `temp_color` of it right before. A frame is produced in every
state whose current temperature has magnitude at most `10 ^ 8`; the last part
shows the frame after the readings 21 and 31. -/
theorem temp_color_bands_and_sites (t : CFloat) (s : State) (f : List Printf) :
    (temp_color t = BLUE ↔ CFloat.lt t (fin 20) = true)
    ∧ (temp_color t = GREEN ↔ CFloat.le (fin 20) t = true ∧ CFloat.lt t (fin 25) = true)
    ∧ (temp_color t = YELLOW ↔ CFloat.le (fin 25) t = true ∧ CFloat.lt t (fin 30) = true)
    ∧ (temp_color t = RED ↔ CFloat.le (fin 30) t = true ∨ t = nan)
    ∧ (temp_color t = BLUE ∨ temp_color t = GREEN ∨ temp_color t = YELLOW ∨ temp_color t = RED)
    ∧ (draw_screen s = some f →
        (∀ p ∈ f, p.colored)
        ∧ (∀ p ∈ f, p.fmt = "%s|%s" →
            p.args = [Arg.str (temp_color s.current_temp), Arg.str RESET])
        ∧ f.filter (fun p => decide (p.fmt = "%s          %6.1f°C\n"))
            = (if is_valid s.current_temp = true then
                [⟨"%s          %6.1f°C\n", [Arg.str (temp_color s.current_temp),
                  Arg.flt s.current_temp]⟩]
              else [])
        ∧ (∀ pos, gauge_pos s.current_temp = some pos →
            f.filter (fun p => decide (p.fmt = "%s|%s"))
              = if is_valid s.current_temp = true ∧ pos < 30 then
                  [⟨"%s|%s", [Arg.str (temp_color s.current_temp), Arg.str RESET]⟩]
                else [])
        ∧ f.filter (fun p => decide
              (p.fmt = "Min: %s%.1f°C%s  Max: %s%.1f°C%s  Avg: %s%.1f°C%s\n\n"))
            = (if 0 < s.reading_count then
                [⟨"Min: %s%.1f°C%s  Max: %s%.1f°C%s  Avg: %s%.1f°C%s\n\n",
                  [Arg.str (temp_color (stats_loop s).min_t), Arg.flt (stats_loop s).min_t,
                   Arg.str RESET,
                   Arg.str (temp_color (stats_loop s).max_t), Arg.flt (stats_loop s).max_t,
                   Arg.str RESET,
                   Arg.str (temp_color (stats_avg s)), Arg.flt (stats_avg s),
                   Arg.str RESET]⟩]
              else [])
        ∧ (s.wf →
            f.filter (fun p => decide (p.fmt = "  %s │ %s%6.1f°C%s\n"))
              = s.history.reverse.map fun r =>
                  ⟨"  %s │ %s%6.1f°C%s\n",
                    [Arg.str r.time_str, Arg.str (temp_color r.temperature),
                     Arg.flt r.temperature, Arg.str RESET]⟩))
    ∧ (∀ q : ℚ, s.current_temp = fin q → |q| ≤ 100000000 → ∃ g, draw_screen s = some g)
    ∧ (∃ g, draw_screen (push_all State.init [(fin 21, "12:00:00"), (fin 31, "12:00:01")])
          = some g
        ∧ (⟨"%s          %6.1f°C\n", [Arg.str "\x1b[31m", Arg.flt (fin 31)]⟩ : Printf) ∈ g
        ∧ g.filter (fun p => decide (p.fmt = "%s|%s"))
            = [⟨"%s|%s", [Arg.str "\x1b[31m", Arg.str "\x1b[0m"]⟩]
        ∧ (⟨"Min: %s%.1f°C%s  Max: %s%.1f°C%s  Avg: %s%.1f°C%s\n\n",
              [Arg.str "\x1b[32m", Arg.flt (fin 21), Arg.str "\x1b[0m",
               Arg.str "\x1b[31m", Arg.flt (fin 31), Arg.str "\x1b[0m",
               Arg.str "\x1b[33m", Arg.flt (fin 26), Arg.str "\x1b[0m"]⟩ : Printf) ∈ g
        ∧ g.filter (fun p => decide (p.fmt = "  %s │ %s%6.1f°C%s\n"))
            = [⟨"  %s │ %s%6.1f°C%s\n",
                [Arg.str "12:00:01", Arg.str "\x1b[31m", Arg.flt (fin 31), Arg.str "\x1b[0m"]⟩,
               ⟨"  %s │ %s%6.1f°C%s\n",
                [Arg.str "12:00:00", Arg.str "\x1b[32m", Arg.flt (fin 21),
                 Arg.str "\x1b[0m"]⟩]) := by
  refine ⟨temp_color_blue t, temp_color_green t, temp_color_yellow t, temp_color_red t, ?_, ?_,
    fun q hq hr => draw_screen_defined s q hq hr, ?_⟩
  · unfold temp_color
    split
    · exact Or.inl rfl
    · split
      · exact Or.inr (Or.inl rfl)
      · split
        · exact Or.inr (Or.inr (Or.inl rfl))
        · exact Or.inr (Or.inr (Or.inr rfl))
  · intro h
    refine ⟨?_, fun p hp hfmt => by rw [marker_format_only s f h p hp hfmt]; rfl,
      frame_current_value s f h, fun pos hpos => frame_markers s f pos h hpos,
      frame_statistics s f h, fun hwf => frame_history_rows s f h hwf⟩
    obtain ⟨cur, hcur, rfl⟩ := Option.map_eq_some'.mp h
    intro p hp
    simp only [List.mem_append] at hp
    rcases hp with ((((hp | hp) | hp) | hp) | hp) | hp
    · exact fixed_blocks_colored s p (by simp [hp])
    · exact current_block_colored s cur hcur p hp
    · exact fixed_blocks_colored s p (by simp [hp])
    · exact statistics_block_colored s p hp
    · exact fixed_blocks_colored s p (by simp [hp])
    · exact fixed_blocks_colored s p (by simp [hp])
  · refine ⟨(draw_screen (push_all State.init
        [(fin 21, "12:00:00"), (fin 31, "12:00:01")])).get (by decide!), by simp, ?_, ?_, ?_, ?_⟩
    · decide!
    · decide!
    · decide!
    · decide!

/-! ## The gauge and the current-value block -/

/-- No cell of the gauge row is the marker when the position is 30: the loop
runs over the cells 0 to 29 only. -/
theorem gauge_cells_no_marker (t : CFloat) :
    ∀ p ∈ gauge_cells t 30, p.fmt ≠ "%s|%s" := by
  intro p hp
  simp only [gauge_cells, List.mem_map, List.mem_range] at hp
  obtain ⟨i, hi, rfl⟩ := hp
  have hne : ¬ ((i : ℤ) = 30) := by omega
  unfold gauge_cell
  rw [if_neg hne]
  split <;> decide

/-- C6, at the failing input: for the value 50 the position is clamped to 30,
and the gauge row, whose cells are numbered 0 to 29, then contains no marker
at all (the same holds for 35, the upper end of the domain); for the value 5
the position is 0 and the first cell is the marker. -/
theorem gauge_marker_missing_at_high_end :
    gauge_pos (fin 50) = some 30
    ∧ (∀ p ∈ gauge_cells (fin 50) 30, p.fmt ≠ "%s|%s")
    ∧ gauge_marker (fin 50) ∉ gauge_cells (fin 50) 30
    ∧ (gauge_cells (fin 50) 30).length = 30
    ∧ gauge_pos (fin 35) = some 30
    ∧ gauge_marker (fin 35) ∉ gauge_cells (fin 35) 30
    ∧ gauge_pos (fin 5) = some 0
    ∧ (gauge_cells (fin 5) 0)[0]? = some (gauge_marker (fin 5)) := by
  refine ⟨by decide!, gauge_cells_no_marker _, ?_, by simp [gauge_cells], by decide!, ?_,
    by decide!, by decide!⟩
  · intro h
    exact gauge_cells_no_marker _ _ h rfl
  · intro h
    exact gauge_cells_no_marker _ _ h rfl

theorem add_temperature_current (s : State) (t : CFloat) (n : String) :
    (add_temperature s t n).current_temp = t := rfl

theorem process_line_valid (s : State) (raw : List Char) (n : String)
    (h : is_valid s.current_temp = true) :
    is_valid (process_line s raw n).current_temp = true := by
  unfold process_line
  simp only
  split
  · next hv => simpa [add_temperature_current] using hv
  · exact h

theorem step_valid (d : Driver) (e : Event) (h : is_valid d.st.current_temp = true) :
    is_valid (step d e).st.current_temp = true := by
  cases e with
  | fifo_missing now => exact h
  | fifo_opened => exact h
  | line raw n now =>
    simp only [step]
    split <;> exact process_line_valid _ _ _ h
  | fifo_closed running now =>
    simp only [step]
    split <;> exact h

theorem run_valid (d : Driver) (evs : List Event) (h : is_valid d.st.current_temp = true) :
    is_valid (run d evs).st.current_temp = true := by
  induction evs generalizing d with
  | nil => exact h
  | cons e evs ih => exact ih (step d e) (step_valid d e h)

/-- C5, at the failing input: at process start the latest temperature is `0.0`,
which passes the test `current_temp > -900`; the first frame of a run in which
the pipe is missing shows the value block for `0.0` with its gauge and not the
`NO DATA` block; and after any sequence of events the latest temperature still
passes the test, so no frame ever takes the `NO DATA` branch. -/
theorem initial_frame_shows_zero_not_no_data :
    State.init.current_temp = fin 0
    ∧ is_valid State.init.current_temp = true
    ∧ current_block State.init = some (value_block (fin 0) 0)
    ∧ (∃ f, (run Driver.init [Event.fifo_missing 100]).out = [⟨100, false, some f⟩]
        ∧ (⟨"        NO DATA\n", []⟩ : Printf) ∉ f
        ∧ (⟨"%s          %6.1f°C\n", [Arg.str BLUE, Arg.flt (fin 0)]⟩ : Printf) ∈ f)
    ∧ (∀ evs, is_valid (run Driver.init evs).st.current_temp = true)
    ∧ (∀ evs, current_block (run Driver.init evs).st ≠ some no_data_block) := by
  have hv : is_valid State.init.current_temp = true := by decide!
  refine ⟨rfl, hv, by decide!, ?_, fun evs => run_valid _ evs hv, ?_⟩
  · refine ⟨(draw_screen { State.init with
        status_msg := ⟨"FIFO not found - waiting...", none⟩ }).get (by decide!), ?_, ?_, ?_⟩
    · simp [run, step, Driver.init]
    · decide!
    · decide!
  · intro evs h
    have hvalid := run_valid Driver.init evs hv
    unfold current_block at h
    rw [if_pos hvalid] at h
    obtain ⟨pos, _, hpos⟩ := Option.map_eq_some'.mp h
    have := congrArg List.length hpos
    simp [value_block, no_data_block, gauge_cells] at this

/-! ## Statistics -/

theorem cfloat_le_refl (a : CFloat) (h : a ≠ nan) : CFloat.le a a = true := by
  cases a <;> simp_all [CFloat.le]

theorem cfloat_le_of_lt (a b : CFloat) (h : CFloat.lt a b = true) : CFloat.le a b = true := by
  cases a <;> cases b <;> simp_all [CFloat.le, CFloat.lt]
  exact le_of_lt h

theorem cfloat_le_of_not_lt (a b : CFloat) (ha : a ≠ nan) (hb : b ≠ nan)
    (h : ¬ CFloat.lt a b = true) : CFloat.le b a = true := by
  cases a <;> cases b <;> simp_all [CFloat.le, CFloat.lt]

theorem cfloat_le_trans (a b c : CFloat) (h1 : CFloat.le a b = true)
    (h2 : CFloat.le b c = true) : CFloat.le a c = true := by
  cases a <;> cases b <;> cases c <;> simp_all [CFloat.le]
  exact le_trans h1 h2

/-- The statistics loop reads the entries of the history in order. -/
theorem fold_range_getD (g : Stats → CFloat → Stats) (l : List TempReading) (n : ℕ)
    (hn : n ≤ l.length) (a : Stats) :
    (List.range n).foldl (fun a i => g a (l.getD i default).temperature) a
      = ((l.take n).map TempReading.temperature).foldl g a := by
  induction n with
  | zero => simp
  | succ n ih =>
    have hlt : n < l.length := hn
    rw [List.range_succ, List.foldl_append, ih (Nat.le_of_lt hlt), List.take_succ,
      List.map_append, List.foldl_append]
    simp [List.getD_eq_getElem?_getD, List.getElem?_eq_getElem hlt]

theorem stats_loop_eq (s : State) (h : s.wf) :
    stats_loop s = s.values.foldl stats_step
      { min_t := (s.readings.getD 0 default).temperature
        max_t := (s.readings.getD 0 default).temperature
        sum := fin 0 } := by
  unfold stats_loop State.values State.history
  exact fold_range_getD stats_step s.readings s.reading_count (by rw [h.1]; exact h.2) _

theorem fold_stats_sum (l : List CFloat) (a : Stats) :
    (l.foldl stats_step a).sum = l.foldl fadd a.sum := by
  induction l generalizing a with
  | nil => rfl
  | cons x l ih => simp [List.foldl_cons, ih, stats_step]

theorem fold_stats_min (l : List CFloat) (a : Stats) (ha : a.min_t ≠ nan)
    (hl : ∀ x ∈ l, x ≠ nan) :
    ((l.foldl stats_step a).min_t = a.min_t ∨ (l.foldl stats_step a).min_t ∈ l)
    ∧ CFloat.le (l.foldl stats_step a).min_t a.min_t = true
    ∧ ∀ x ∈ l, CFloat.le (l.foldl stats_step a).min_t x = true := by
  induction l generalizing a with
  | nil => exact ⟨Or.inl rfl, cfloat_le_refl _ ha, by simp⟩
  | cons y l ih =>
    have hy : y ≠ nan := hl y (by simp)
    have hl' : ∀ x ∈ l, x ≠ nan := fun x hx => hl x (by simp [hx])
    rw [List.foldl_cons]
    by_cases hlt : CFloat.lt y a.min_t = true
    · have hstep : (stats_step a y).min_t = y := by simp [stats_step, hlt]
      obtain ⟨h1, h2, h3⟩ := ih (stats_step a y) (by rw [hstep]; exact hy) hl'
      rw [hstep] at h1 h2
      refine ⟨Or.inr ?_, cfloat_le_trans _ _ _ h2 (cfloat_le_of_lt _ _ hlt), ?_⟩
      · rcases h1 with h1 | h1
        · rw [h1]; simp
        · simp [h1]
      · intro x hx
        rcases List.mem_cons.mp hx with rfl | hx
        · exact h2
        · exact h3 x hx
    · have hstep : (stats_step a y).min_t = a.min_t := by simp [stats_step, hlt]
      obtain ⟨h1, h2, h3⟩ := ih (stats_step a y) (by rw [hstep]; exact ha) hl'
      rw [hstep] at h1 h2
      refine ⟨?_, h2, ?_⟩
      · rcases h1 with h1 | h1
        · exact Or.inl h1
        · exact Or.inr (by simp [h1])
      · intro x hx
        rcases List.mem_cons.mp hx with rfl | hx
        · exact cfloat_le_trans _ _ _ h2 (cfloat_le_of_not_lt _ _ hy ha hlt)
        · exact h3 x hx

theorem fold_stats_max (l : List CFloat) (a : Stats) (ha : a.max_t ≠ nan)
    (hl : ∀ x ∈ l, x ≠ nan) :
    ((l.foldl stats_step a).max_t = a.max_t ∨ (l.foldl stats_step a).max_t ∈ l)
    ∧ CFloat.le a.max_t (l.foldl stats_step a).max_t = true
    ∧ ∀ x ∈ l, CFloat.le x (l.foldl stats_step a).max_t = true := by
  induction l generalizing a with
  | nil => exact ⟨Or.inl rfl, cfloat_le_refl _ ha, by simp⟩
  | cons y l ih =>
    have hy : y ≠ nan := hl y (by simp)
    have hl' : ∀ x ∈ l, x ≠ nan := fun x hx => hl x (by simp [hx])
    rw [List.foldl_cons]
    by_cases hgt : CFloat.gt y a.max_t = true
    · have hstep : (stats_step a y).max_t = y := by simp [stats_step, hgt]
      obtain ⟨h1, h2, h3⟩ := ih (stats_step a y) (by rw [hstep]; exact hy) hl'
      rw [hstep] at h1 h2
      refine ⟨Or.inr ?_, cfloat_le_trans _ _ _ (cfloat_le_of_lt _ _ hgt) h2, ?_⟩
      · rcases h1 with h1 | h1
        · rw [h1]; simp
        · simp [h1]
      · intro x hx
        rcases List.mem_cons.mp hx with rfl | hx
        · exact h2
        · exact h3 x hx
    · have hstep : (stats_step a y).max_t = a.max_t := by simp [stats_step, hgt]
      obtain ⟨h1, h2, h3⟩ := ih (stats_step a y) (by rw [hstep]; exact ha) hl'
      rw [hstep] at h1 h2
      refine ⟨?_, h2, ?_⟩
      · rcases h1 with h1 | h1
        · exact Or.inl h1
        · exact Or.inr (by simp [h1])
      · intro x hx
        rcases List.mem_cons.mp hx with rfl | hx
        · exact cfloat_le_trans _ _ _ (cfloat_le_of_not_lt _ _ ha hy hgt) h2
        · exact h3 x hx

/-- The invariant of the globals over a run: the buffer is well formed and
every recorded temperature passed the test `temp > -900`. -/
theorem process_line_inv (s : State) (raw : List Char) (n : String)
    (h : s.wf ∧ ∀ r ∈ s.history, is_valid r.temperature = true) :
    (process_line s raw n).wf
    ∧ ∀ r ∈ (process_line s raw n).history, is_valid r.temperature = true := by
  unfold process_line
  simp only
  split
  · next hv =>
    obtain ⟨hwf, hh⟩ := add_temperature_history s h.1
      (extract_temperature (raw.takeWhile (fun c => c ≠ '\n'))) n
    refine ⟨hwf, ?_⟩
    intro r hr
    have hr' : r ∈ (add_temperature s
        (extract_temperature (raw.takeWhile (fun c => c ≠ '\n'))) n).history := hr
    rw [hh] at hr'
    rcases List.mem_append.mp (List.mem_of_mem_drop hr') with hr' | hr'
    · exact h.2 r hr'
    · rw [List.mem_singleton.mp hr']
      exact hv
  · exact h

theorem step_inv (d : Driver) (e : Event)
    (h : d.st.wf ∧ ∀ r ∈ d.st.history, is_valid r.temperature = true) :
    (step d e).st.wf ∧ ∀ r ∈ (step d e).st.history, is_valid r.temperature = true := by
  cases e with
  | fifo_missing now => exact h
  | fifo_opened => exact h
  | line raw n now =>
    simp only [step]
    split <;> exact process_line_inv _ _ _ h
  | fifo_closed running now =>
    simp only [step]
    split <;> exact h

theorem run_inv (d : Driver) (evs : List Event)
    (h : d.st.wf ∧ ∀ r ∈ d.st.history, is_valid r.temperature = true) :
    (run d evs).st.wf ∧ ∀ r ∈ (run d evs).st.history, is_valid r.temperature = true := by
  induction evs generalizing d with
  | nil => exact h
  | cons e evs ih => exact ih (step d e) (step_inv d e h)

/-- In every state a run of the program reaches, the buffer is well formed
and the history holds no NaN. -/
theorem reachable_history (evs : List Event) :
    (run Driver.init evs).st.wf ∧ ∀ x ∈ (run Driver.init evs).st.values, x ≠ nan := by
  obtain ⟨hwf, hv⟩ := run_inv Driver.init evs
    ⟨init_wf, by simp [Driver.init, init_history]⟩
  refine ⟨hwf, ?_⟩
  intro x hx
  obtain ⟨r, hr, rfl⟩ := List.mem_map.mp hx
  intro hnan
  have := hv r hr
  rw [hnan] at this
  exact absurd this (by decide)

theorem history_length (s : State) (h : s.wf) : s.values.length = s.reading_count := by
  simp [State.values, State.history, h.1, h.2]

theorem values_head (s : State) (h : s.wf) (hpos : 0 < s.reading_count) :
    ∃ vs, s.values = (s.readings.getD 0 default).temperature :: vs := by
  have hlen : 0 < s.readings.length := by rw [h.1]; decide
  obtain ⟨n, hn⟩ : ∃ n, s.reading_count = n + 1 := ⟨s.reading_count - 1, by omega⟩
  cases hr : s.readings with
  | nil => rw [hr] at hlen; simp at hlen
  | cons r rs =>
    refine ⟨(rs.take n).map TempReading.temperature, ?_⟩
    simp [State.values, State.history, hr, hn]

/-- Rounding to `float` a value of magnitude at most 16000 gives a finite
value within `2 ^ (-11)` of it. -/
theorem roundFloat_close (q : ℚ) (hq : |q| ≤ 16000) :
    ∃ r, roundFloat q = fin r ∧ |r - q| ≤ 1 / 2048 := by
  have hfit : 2 * |q| + (2 : ℚ) ^ ((-126 : ℤ) - (((24 : ℕ) : ℤ) - 1))
      < (2 : ℚ) ^ ((127 : ℤ) + 1) := by
    have hu : (2 : ℚ) ^ ((-126 : ℤ) - (((24 : ℕ) : ℤ) - 1)) ≤ 1 :=
      zpow_le_one_of_nonpos₀ (by norm_num) (by norm_num)
    have hbig : (2 : ℚ) * 16000 + 1 < (2 : ℚ) ^ ((127 : ℤ) + 1) := by
      rw [show ((127 : ℤ) + 1) = ((128 : ℕ) : ℤ) by norm_num, zpow_natCast]
      norm_num
    linarith
  obtain ⟨r, hr, _⟩ := roundBinary_bound 24 (-126) 127 q (by norm_num) hfit
  refine ⟨r, hr, ?_⟩
  by_cases h0 : q = 0
  · subst h0
    have : roundBinary 24 (-126) 127 0 = fin 0 := by simp [roundBinary]
    rw [this] at hr
    rw [← CFloat.fin.inj hr]
    norm_num
  · obtain ⟨m, _, _, hdist⟩ := roundBinary_nearest 24 (-126) 127 q r h0 hr
    have hlog : ilog2 |q| ≤ 13 := by
      have h1 := (ilog2_spec |q| (abs_pos.mpr h0)).1
      have h2 : (2 : ℚ) ^ ilog2 |q| < (2 : ℚ) ^ (14 : ℤ) := by
        have : (2 : ℚ) ^ (14 : ℤ) = 16384 := by norm_num
        rw [this]
        linarith
      have := (zpow_lt_zpow_iff_right₀ (by norm_num : (1 : ℚ) < 2)).mp h2
      omega
    have hulp : (2 : ℚ) ^ (max (ilog2 |q|) (-126) - (((24 : ℕ) : ℤ) - 1))
        ≤ (2 : ℚ) ^ (-10 : ℤ) := by
      apply zpow_le_zpow_right₀ (by norm_num)
      have : max (ilog2 |q|) (-126) ≤ 13 := max_le hlog (by norm_num)
      push_cast
      omega
    have h10 : (2 : ℚ) ^ (-10 : ℤ) = 1 / 1024 := by norm_num
    rw [h10] at hulp
    linarith

/-- The `float` sum of finite values of magnitude at most 1000, at most 15 of
them, is finite and within `n / 2048` of the exact sum. -/
theorem float_sum_close (l : List ℚ) (a S : ℚ) (k : ℕ)
    (hl : ∀ q ∈ l, |q| ≤ 1000) (hk : k + l.length ≤ 15)
    (hS : |S| ≤ 1000 * k) (ha : |a - S| ≤ k / 2048) :
    ∃ r, (l.map fin).foldl fadd (fin a) = fin r
      ∧ |r - (S + l.sum)| ≤ ((k + l.length : ℕ) : ℚ) / 2048 := by
  induction l generalizing a S k with
  | nil => exact ⟨a, rfl, by simpa using ha⟩
  | cons x l ih =>
    have hx : |x| ≤ 1000 := hl x (by simp)
    have hlen : k + 1 + l.length ≤ 15 := by simp at hk; omega
    have hk15 : (k : ℚ) ≤ 14 := by
      have : k ≤ 14 := by simp at hk; omega
      exact_mod_cast this
    have hk0 : (0 : ℚ) ≤ (k : ℚ) := Nat.cast_nonneg k
    have hS' : |S + x| ≤ 1000 * ((k + 1 : ℕ) : ℚ) := by
      push_cast
      calc |S + x| ≤ |S| + |x| := abs_add _ _
        _ ≤ 1000 * k + 1000 := by linarith
        _ = 1000 * ((k : ℚ) + 1) := by ring
    have habs : |a| ≤ 1000 * k + k / 2048 := by
      calc |a| = |(a - S) + S| := by ring_nf
        _ ≤ |a - S| + |S| := abs_add _ _
        _ ≤ 1000 * k + k / 2048 := by linarith
    have hax : |a + x| ≤ 16000 := by
      calc |a + x| ≤ |a| + |x| := abs_add _ _
        _ ≤ 1000 * k + k / 2048 + 1000 := by linarith
        _ ≤ 16000 := by linarith
    obtain ⟨r, hr, hrd⟩ := roundFloat_close (a + x) hax
    have hstep : fadd (fin a) (fin x) = fin r := by simp [fadd, hr]
    have ha' : |r - (S + x)| ≤ ((k + 1 : ℕ) : ℚ) / 2048 := by
      push_cast
      calc |r - (S + x)| = |(r - (a + x)) + (a - S)| := by ring_nf
        _ ≤ |r - (a + x)| + |a - S| := abs_add _ _
        _ ≤ 1 / 2048 + k / 2048 := by linarith
        _ = ((k : ℚ) + 1) / 2048 := by ring
    obtain ⟨r', hr', hrd'⟩ := ih r (S + x) (k + 1) (fun q hq => hl q (by simp [hq]))
      hlen hS' ha'
    refine ⟨r', by simpa [List.foldl_cons, hstep] using hr', ?_⟩
    have e1 : S + (x :: l).sum = S + x + l.sum := by simp [add_assoc]
    have e2 : k + (x :: l).length = k + 1 + l.length := by
      rw [List.length_cons]; omega
    rw [e1, e2]
    exact hrd'

/-- For a history of finite values of magnitude at most 1000, the average
printed by `draw_screen` is within `1 / 1024` of the exact mean. -/
theorem stats_avg_close (s : State) (hwf : s.wf) (hpos : 0 < s.reading_count) (qs : List ℚ)
    (hv : s.values = qs.map fin) (hq : ∀ q ∈ qs, |q| ≤ 1000) :
    ∃ r, stats_avg s = fin r ∧ |r - qs.sum / (qs.length : ℚ)| ≤ 1 / 1024 := by
  have hlen : qs.length = s.reading_count := by
    have := history_length s hwf
    rw [hv, List.length_map] at this
    exact this
  have hn15 : qs.length ≤ 15 := by rw [hlen]; exact hwf.2
  have hn0 : 0 < qs.length := by rw [hlen]; exact hpos
  have hnq : (0 : ℚ) < (qs.length : ℚ) := by exact_mod_cast hn0
  have hnq15 : (qs.length : ℚ) ≤ 15 := by exact_mod_cast hn15
  obtain ⟨a, ha, had⟩ := float_sum_close qs 0 0 0 hq (by simpa using hn15) (by simp) (by simp)
  simp only [zero_add, Nat.zero_add] at had
  have hsum : (stats_loop s).sum = fin a := by
    rw [stats_loop_eq s hwf, fold_stats_sum, hv]
    exact ha
  have hSabs : |qs.sum| ≤ 1000 * (qs.length : ℚ) := by
    clear ha had hsum hv hlen hn15 hn0 hnq hnq15
    induction qs with
    | nil => simp
    | cons x l ih =>
      have hx := hq x (by simp)
      have := ih (fun q hq' => hq q (by simp [hq']))
      simp only [List.sum_cons, List.length_cons]
      push_cast
      calc |x + l.sum| ≤ |x| + |l.sum| := abs_add _ _
        _ ≤ 1000 * ((l.length : ℚ) + 1) := by linarith
  have haabs : |a| ≤ 15001 := by
    calc |a| = |(a - qs.sum) + qs.sum| := by ring_nf
      _ ≤ |a - qs.sum| + |qs.sum| := abs_add _ _
      _ ≤ (qs.length : ℚ) / 2048 + 1000 * (qs.length : ℚ) := by linarith
      _ ≤ 15001 := by linarith
  have hdivabs : |a / (qs.length : ℚ)| ≤ 16000 := by
    rw [abs_div, abs_of_pos hnq, div_le_iff₀ hnq]
    have : (1 : ℚ) ≤ (qs.length : ℚ) := by exact_mod_cast hn0
    nlinarith
  obtain ⟨r, hr, hrd⟩ := roundFloat_close (a / (qs.length : ℚ)) hdivabs
  refine ⟨r, ?_, ?_⟩
  · unfold stats_avg
    rw [hsum, ← hlen]
    exact hr
  · have hquot : |a / (qs.length : ℚ) - qs.sum / (qs.length : ℚ)| ≤ 1 / 2048 := by
      rw [← sub_div, abs_div, abs_of_pos hnq, div_le_iff₀ hnq]
      calc |a - qs.sum| ≤ (qs.length : ℚ) / 2048 := had
        _ = 1 / 2048 * (qs.length : ℚ) := by ring
    calc |r - qs.sum / (qs.length : ℚ)|
        = |(r - a / (qs.length : ℚ)) + (a / (qs.length : ℚ) - qs.sum / (qs.length : ℚ))| := by
          ring_nf
      _ ≤ |r - a / (qs.length : ℚ)| + |a / (qs.length : ℚ) - qs.sum / (qs.length : ℚ)| :=
          abs_add _ _
      _ ≤ 1 / 2048 + 1 / 2048 := by linarith
      _ = 1 / 1024 := by norm_num

/-- C7: for a non-empty history without NaN the statistics of `draw_screen`
are: `min_t` a value of the history that is at most every value of it, `max_t`
a value of the history that is at least every value of it, and the average the
`float` sum of the values, taken in order, divided in `float` arithmetic by
their count; these are the values printed. When the values are finite of
magnitude at most 1000, that average is within `1 / 1024` of the exact sum of
the values divided by their count. For the empty history the statistics block
prints nothing. Every state a run of the program reaches has a well-formed
buffer and a history without NaN. -/
theorem statistics_of_history (s : State) (hwf : s.wf) (evs : List Event) :
    (0 < s.reading_count → (∀ x ∈ s.values, x ≠ nan) →
      (stats_loop s).min_t ∈ s.values
      ∧ (∀ x ∈ s.values, CFloat.le (stats_loop s).min_t x = true)
      ∧ (stats_loop s).max_t ∈ s.values
      ∧ (∀ x ∈ s.values, CFloat.le x (stats_loop s).max_t = true)
      ∧ stats_avg s = fdiv_count (float_sum s.values) s.values.length
      ∧ statistics_block s =
          [⟨"STATISTICS (Last %d readings):\n", [Arg.int s.reading_count]⟩,
           ⟨"Min: %s%.1f°C%s  Max: %s%.1f°C%s  Avg: %s%.1f°C%s\n\n",
            [Arg.str (temp_color (stats_loop s).min_t), Arg.flt (stats_loop s).min_t,
             Arg.str RESET,
             Arg.str (temp_color (stats_loop s).max_t), Arg.flt (stats_loop s).max_t,
             Arg.str RESET,
             Arg.str (temp_color (stats_avg s)), Arg.flt (stats_avg s), Arg.str RESET]⟩])
    ∧ (∀ qs : List ℚ, 0 < s.reading_count → s.values = qs.map fin →
        (∀ q ∈ qs, |q| ≤ 1000) →
        ∃ r, stats_avg s = fin r ∧ |r - qs.sum / (qs.length : ℚ)| ≤ 1 / 1024)
    ∧ (s.reading_count = 0 → statistics_block s = [])
    ∧ ((run Driver.init evs).st.wf ∧ ∀ x ∈ (run Driver.init evs).st.values, x ≠ nan) := by
  refine ⟨?_, fun qs hpos hv hq => stats_avg_close s hwf hpos qs hv hq, ?_,
    reachable_history evs⟩
  · intro hpos hnan
    obtain ⟨vs, hvs⟩ := values_head s hwf hpos
    have hloop := stats_loop_eq s hwf
    have h0 : (s.readings.getD 0 default).temperature ≠ nan := hnan _ (by rw [hvs]; simp)
    obtain ⟨m1, _, m3⟩ := fold_stats_min s.values
      { min_t := (s.readings.getD 0 default).temperature
        max_t := (s.readings.getD 0 default).temperature
        sum := fin 0 } h0 hnan
    obtain ⟨x1, _, x3⟩ := fold_stats_max s.values
      { min_t := (s.readings.getD 0 default).temperature
        max_t := (s.readings.getD 0 default).temperature
        sum := fin 0 } h0 hnan
    rw [← hloop] at m1 m3 x1 x3
    simp only at m1 x1
    refine ⟨?_, m3, ?_, x3, ?_, ?_⟩
    · rcases m1 with h | h
      · rw [h, hvs]; simp
      · exact h
    · rcases x1 with h | h
      · rw [h, hvs]; simp
      · exact h
    · unfold stats_avg
      rw [hloop, fold_stats_sum, history_length s hwf]
      rfl
    · simp [statistics_block, hpos]
  · intro h0
    simp [statistics_block, h0]

theorem statistics_of_history_witness :
    (stats_loop (push_all State.init [(fin 18, "a"), (fin 22, "b"), (fin 31, "c")])).min_t
      = fin 18
    ∧ (stats_loop (push_all State.init [(fin 18, "a"), (fin 22, "b"), (fin 31, "c")])).max_t
      = fin 31
    ∧ stats_avg (push_all State.init [(fin 18, "a"), (fin 22, "b"), (fin 31, "c")])
      = fin (12408149 / 524288)
    ∧ |(12408149 / 524288 : ℚ) - 71 / 3| < 1 / 1000000
    ∧ fin 18 ∈ (push_all State.init [(fin 18, "a"), (fin 22, "b"), (fin 31, "c")]).values
    ∧ statistics_block State.init = [] := by
  have h := statistics_of_history
    (push_all State.init [(fin 18, "a"), (fin 22, "b"), (fin 31, "c")]) (push_all_inv _).1 []
  have hmin : (stats_loop
      (push_all State.init [(fin 18, "a"), (fin 22, "b"), (fin 31, "c")])).min_t = fin 18 := by
    decide!
  refine ⟨hmin, by decide!, by decide!, by decide!, ?_,
    (statistics_of_history State.init init_wf []).2.2.1 rfl⟩
  rw [← hmin]
  exact (h.1 (by decide!) (by decide!)).1

/-! ## The redraw gate -/

/-- C10, as stated, fails: a line arrives in second 5 and is rendered, the
pipe is closed in the same second, and the frame for the lost connection is
rendered although the current second equals the second of the last render:
two frames in wall-clock second 5. -/
theorem two_frames_in_one_second :
    (run Driver.init
      [Event.fifo_opened, Event.line "\x7b\"temp_c\": 21.0\x7d\n".toList "12:00:05" 5,
       Event.fifo_closed true 5]).seconds = [5, 5]
    ∧ ¬ (run Driver.init
      [Event.fifo_opened, Event.line "\x7b\"temp_c\": 21.0\x7d\n".toList "12:00:05" 5,
       Event.fifo_closed true 5]).seconds.Nodup := by
  have h : (run Driver.init
      [Event.fifo_opened, Event.line "\x7b\"temp_c\": 21.0\x7d\n".toList "12:00:05" 5,
       Event.fifo_closed true 5]).seconds = [5, 5] := by
    simp [run, step, Driver.init, Driver.seconds]
  rw [h]
  exact ⟨rfl, by decide⟩

theorem gated_seconds_append (d : Driver) (r : Render) :
    ({ d with out := d.out ++ [r] } : Driver).gated_seconds
      = d.gated_seconds ++ (if r.gated then [r.second] else []) := by
  unfold Driver.gated_seconds
  by_cases h : r.gated = true <;> simp [List.filter_append, h, List.filter_cons]

/-- The invariant of the gate over a run: the seconds of the gated frames
increase strictly, none is after `last_display`, and once there is a gated
frame `last_display` is the time of an event of the run. -/
theorem gate_invariant (evs : List Event) (hmono : (event_times evs).Pairwise (· ≤ ·)) :
    (run Driver.init evs).gated_seconds.Pairwise (· < ·)
    ∧ ∀ sec ∈ (run Driver.init evs).gated_seconds,
        sec ≤ (run Driver.init evs).last_display
        ∧ (run Driver.init evs).last_display ∈ event_times evs := by
  induction evs using List.reverseRecOn with
  | nil => simp [run, Driver.init, Driver.gated_seconds]
  | append_singleton evs e ih =>
    have hrun : run Driver.init (evs ++ [e]) = step (run Driver.init evs) e := by
      simp [run, List.foldl_append]
    have htimes : event_times (evs ++ [e]) = event_times evs ++ event_times [e] := by
      simp [event_times, List.filterMap_append]
    rw [htimes, List.pairwise_append] at hmono
    obtain ⟨hm1, _, hm3⟩ := hmono
    obtain ⟨ih1, ih2⟩ := ih hm1
    rw [hrun, htimes]
    generalize run Driver.init evs = d at ih1 ih2 ⊢
    have hkeep : ∀ sec ∈ d.gated_seconds, sec ≤ d.last_display
        ∧ d.last_display ∈ event_times evs ++ event_times [e] :=
      fun sec hs => ⟨(ih2 sec hs).1, List.mem_append_left _ (ih2 sec hs).2⟩
    cases e with
    | fifo_opened => exact ⟨ih1, hkeep⟩
    | fifo_missing now =>
      have hg := gated_seconds_append d ⟨now, false, draw_screen
        { d.st with status_msg := ⟨"FIFO not found - waiting...", none⟩ }⟩
      simp only [Bool.false_eq_true, if_false, List.append_nil] at hg
      simp only [step]
      exact ⟨by rw [← hg] at ih1; exact ih1, fun sec hs => hkeep sec (by rw [← hg]; exact hs)⟩
    | fifo_closed running now =>
      cases running with
      | false => exact ⟨ih1, hkeep⟩
      | true =>
        have hg := gated_seconds_append d ⟨now, false, draw_screen
          { d.st with status_msg := ⟨"Connection lost - reconnecting...", none⟩ }⟩
        simp only [Bool.false_eq_true, if_false, List.append_nil] at hg
        simp only [step, if_true]
        exact ⟨by rw [← hg] at ih1; exact ih1,
          fun sec hs => hkeep sec (by rw [← hg]; exact hs)⟩
    | line raw now_str now =>
      simp only [step]
      by_cases hne : now ≠ d.last_display
      · rw [if_pos hne]
        have hg : Driver.gated_seconds
            { st := process_line d.st raw now_str
              last_display := now
              out := d.out ++ [⟨now, true, draw_screen (process_line d.st raw now_str)⟩] }
            = d.gated_seconds ++ [now] := by
          simp [Driver.gated_seconds, List.filter_append]
        rw [hg]
        have hnow : now ∈ event_times evs ++ event_times [Event.line raw now_str now] := by
          simp [event_times, Event.time]
        have hlt : ∀ sec ∈ d.gated_seconds, sec < now := by
          intro sec hs
          obtain ⟨h1, h2⟩ := ih2 sec hs
          have : d.last_display ≤ now := hm3 _ h2 now (by simp [event_times, Event.time])
          exact lt_of_le_of_lt h1 (lt_of_le_of_ne this (Ne.symm hne))
        refine ⟨?_, ?_⟩
        · rw [List.pairwise_append]
          exact ⟨ih1, by simp, fun a ha b hb => by
            rw [List.mem_singleton.mp hb]; exact hlt a ha⟩
        · intro sec hs
          rcases List.mem_append.mp hs with hs | hs
          · exact ⟨le_of_lt (hlt sec hs), hnow⟩
          · rw [List.mem_singleton.mp hs]
            exact ⟨le_refl _, hnow⟩
      · rw [if_neg hne]
        exact ⟨ih1, hkeep⟩

/-- C10, as the code has it: after processing a line a frame is rendered
exactly when the current second differs from `last_display`, and
`last_display` then becomes the current second; after a retry-wait event
(pipe not found, connection lost while still running) one frame is rendered
whatever the second, and `last_display` is not updated. So, when the clock
does not run backwards, no two frames rendered after lines fall in the same
wall-clock second, while a frame of a retry-wait event may share its second
with another frame. -/
theorem redraw_gate (d : Driver) (raw : List Char) (now_str : String) (now : ℤ)
    (evs : List Event) (hmono : (event_times evs).Pairwise (· ≤ ·)) :
    (now ≠ d.last_display →
      (step d (Event.line raw now_str now)).out
          = d.out ++ [⟨now, true, draw_screen (process_line d.st raw now_str)⟩]
        ∧ (step d (Event.line raw now_str now)).last_display = now)
    ∧ (now = d.last_display →
      (step d (Event.line raw now_str now)).out = d.out
        ∧ (step d (Event.line raw now_str now)).last_display = d.last_display)
    ∧ ((step d (Event.fifo_missing now)).out.length = d.out.length + 1
        ∧ (step d (Event.fifo_missing now)).seconds = d.seconds ++ [now]
        ∧ (step d (Event.fifo_missing now)).last_display = d.last_display)
    ∧ ((step d (Event.fifo_closed true now)).out.length = d.out.length + 1
        ∧ (step d (Event.fifo_closed true now)).seconds = d.seconds ++ [now]
        ∧ (step d (Event.fifo_closed true now)).last_display = d.last_display)
    ∧ (step d Event.fifo_opened).out = d.out
    ∧ (step d (Event.fifo_closed false now)).out = d.out
    ∧ (run Driver.init evs).gated_seconds.Nodup := by
  refine ⟨fun h => by simp [step, h], fun h => by simp [step, h],
    by simp [step, Driver.seconds], by simp [step, Driver.seconds], rfl, by simp [step], ?_⟩
  exact ((gate_invariant evs hmono).1.imp (fun h => ne_of_lt h))

theorem redraw_gate_witness :
    (event_times [Event.fifo_missing 3, Event.fifo_opened,
        Event.line "\x7b\"temp_c\": 21.0\x7d\n".toList "12:00:05" 5,
        Event.line "\x7b\"temp_c\": 22.0\x7d\n".toList "12:00:05" 5,
        Event.line "\x7b\"temp_c\": 23.0\x7d\n".toList "12:00:06" 6,
        Event.fifo_closed true 6]).Pairwise (· ≤ ·)
    ∧ (run Driver.init [Event.fifo_missing 3, Event.fifo_opened,
        Event.line "\x7b\"temp_c\": 21.0\x7d\n".toList "12:00:05" 5,
        Event.line "\x7b\"temp_c\": 22.0\x7d\n".toList "12:00:05" 5,
        Event.line "\x7b\"temp_c\": 23.0\x7d\n".toList "12:00:06" 6,
        Event.fifo_closed true 6]).gated_seconds.Nodup :=
  ⟨by decide,
   (redraw_gate Driver.init [] "" 0 [Event.fifo_missing 3, Event.fifo_opened,
        Event.line "\x7b\"temp_c\": 21.0\x7d\n".toList "12:00:05" 5,
        Event.line "\x7b\"temp_c\": 22.0\x7d\n".toList "12:00:05" 5,
        Event.line "\x7b\"temp_c\": 23.0\x7d\n".toList "12:00:06" 6,
        Event.fifo_closed true 6] (by decide)).2.2.2.2.2.2⟩

end TempGui
